import Mathlib

/-!
# shadesmar: `IPC_Set` and `IPC_Lock` (include/shadesmar/ipc_lock.h)

A shallow embedding of the lock-free pid set and of the crash-resilient
reader/writer lock built on it, followed by theorems about them.

Conventions of the embedding:

* a `uint32_t` is a `Nat`; the only arithmetic that can wrap is the multiplication
  in `hash`, which is reduced modulo `2 ^ 32`.  A probe index is masked with
  `size - 1` before every use, so `idx + 1 ≤ size` never wraps;
* the array `__array` is a `List Nat` whose length is the template parameter `size`;
* a loop is a recursive function over a fuel argument counting loop iterations; it
  yields `none` when the fuel is used up before the loop is left;
* the atomics are executed one at a time (one process runs a call to its end, or, in
  the system model, one retry-loop iteration to its end).
-/

namespace Shadesmar

/-! ## IPC_Set -/

/-- The table of an `IPC_Set<size>`: the words of `__array`, `size` of them. -/
abbrev IPC_Set := List Nat

/-- The integer mixer `IPC_Set::hash` on a `uint32_t`. -/
def hash (h : Nat) : Nat :=
  let h := h ^^^ (h >>> 16)
  let h := (h * 0x85ebca6b) % 2 ^ 32
  let h := h ^^^ (h >>> 13)
  let h := (h * 0xc2b2ae35) % 2 ^ 32
  let h := h ^^^ (h >>> 16)
  h

/-- The atomic read `__array[idx].load(mem_order)`. -/
def load (arr : IPC_Set) (idx : Nat) : Nat := arr.getD idx 0

/-- The atomic `__array[idx].compare_exchange_strong(expected, desired)`: on success the
word is replaced; on failure the word is kept and `expected` receives the value found.
The result is (success, table, expected). -/
def compare_exchange_strong (arr : IPC_Set) (idx expected desired : Nat) :
    Bool × IPC_Set × Nat :=
  if load arr idx = expected then (true, arr.set idx desired, expected)
  else (false, arr, load arr idx)

/-- The loop of `IPC_Set::insert`, entered with the unmasked index `idx`; `probes` counts
the slots loaded so far.  Result: the table and the number of slots loaded. -/
def insertLoop (elem : Nat) : Nat → IPC_Set → Nat → Nat → Option (IPC_Set × Nat)
  | 0, _, _, _ => none
  | fuel + 1, arr, idx, probes =>
    let idx := idx &&& (arr.length - 1)
    let probedElem := load arr idx
    if probedElem ≠ elem then
      if probedElem ≠ 0 then
        insertLoop elem fuel arr (idx + 1) (probes + 1)
      else
        match compare_exchange_strong arr idx 0 elem with
        | (true, arr1, _) => some (arr1, probes + 1)
        | (false, arr1, _) => insertLoop elem fuel arr1 (idx + 1) (probes + 1)
    else some (arr, probes + 1)

/-- The call `insert(elem)` with its probe count. -/
def insertProbes (fuel : Nat) (arr : IPC_Set) (elem : Nat) : Option (IPC_Set × Nat) :=
  insertLoop elem fuel arr (hash elem) 0

/-- The call `IPC_Set::insert(elem)`. -/
def insert (fuel : Nat) (arr : IPC_Set) (elem : Nat) : Option IPC_Set :=
  (insertProbes fuel arr elem).map Prod.fst

/-- What `IPC_Set::remove` hands back: the table, the returned `bool`, the slots loaded. -/
structure RemoveResult where
  arr : IPC_Set
  removed : Bool
  probes : Nat
deriving DecidableEq

/-- The `do ... while (idx != init_idx)` loop of `IPC_Set::remove`, entered with the
index `idx`.  `elem` is loop state because a failed compare-exchange overwrites it.  The
exit test compares the incremented, not yet masked index with `init_idx`. -/
def removeLoop (init_idx : Nat) : Nat → IPC_Set → Nat → Nat → Nat → Option RemoveResult
  | 0, _, _, _, _ => none
  | fuel + 1, arr, elem, idx, probes =>
    let idx := idx &&& (arr.length - 1)
    let probedElem := load arr idx
    if probedElem = elem then
      match compare_exchange_strong arr idx elem 0 with
      | (true, arr1, _) => some ⟨arr1, true, probes + 1⟩
      | (false, arr1, elem1) =>
        if idx + 1 ≠ init_idx then removeLoop init_idx fuel arr1 elem1 (idx + 1) (probes + 1)
        else some ⟨arr1, false, probes + 1⟩
    else
      if idx + 1 ≠ init_idx then removeLoop init_idx fuel arr elem (idx + 1) (probes + 1)
      else some ⟨arr, false, probes + 1⟩

/-- The call `IPC_Set::remove(elem)`; `hash(elem) & size - 1` is `hash(elem) & (size - 1)`
by operator precedence. -/
def remove (fuel : Nat) (arr : IPC_Set) (elem : Nat) : Option RemoveResult :=
  let idx := hash elem &&& (arr.length - 1)
  removeLoop idx fuel arr elem idx 0

/-- The snapshot of a table: the set of its non-zero words. -/
def snapshot (arr : IPC_Set) : Finset Nat := (arr.filter (· ≠ 0)).toFinset

/-- A call on an `IPC_Set`. -/
inductive SetOp where
  | insert (k : Nat)
  | remove (k : Nat)
deriving DecidableEq

/-- The key a call is about. -/
def SetOp.key : SetOp → Nat
  | SetOp.insert k => k
  | SetOp.remove k => k

/-- Run a sequence of calls one after the other; `none` when a call does not return
within `fuel` loop iterations. -/
def runOps (fuel : Nat) : IPC_Set → List SetOp → Option IPC_Set
  | arr, [] => some arr
  | arr, SetOp.insert k :: ops =>
    match insert fuel arr k with
    | none => none
    | some arr1 => runOps fuel arr1 ops
  | arr, SetOp.remove k :: ops =>
    match remove fuel arr k with
    | none => none
    | some r => runOps fuel r.arr ops

/-- One call in the mathematical set of the specification: `insert(k)` adds `k`,
`remove(k)` deletes `k`. -/
def specStep (s : Finset Nat) : SetOp → Finset Nat
  | SetOp.insert k => Insert.insert k s
  | SetOp.remove k => s.erase k

/-- The mathematical set obtained from the empty set by a sequence of calls. -/
def specSet (ops : List SetOp) : Finset Nat := ops.foldl specStep ∅

/-! ## Liveness -/

/-- The value of `ENOENT` in `errno.h`. -/
def ENOENT : Int := 2

/-- The value of `EACCES` in `errno.h`. -/
def EACCES : Int := 13

/-- The process table as `proc_exists` sees it: for a pid, what `stat` on `/proc/<pid>`
returns and the value of `errno` after the call. -/
abbrev OS := Int → Int × Int

/-- The function `proc_exists(proc)`: `!(stat(...) == -1 && errno == ENOENT)`. -/
def proc_exists (os : OS) (proc : Int) : Bool :=
  !((os proc).1 == -1 && (os proc).2 == ENOENT)

/-- The conversion of a `__pid_t` to the `uint32_t` parameter of `insert` and `remove`. -/
def toU32 (p : Int) : Nat := (p % 2 ^ 32).toNat

/-- The conversion of a `uint32_t` word to the `__pid_t` parameter of `proc_exists`. -/
def toPid (v : Nat) : Int :=
  if v % 2 ^ 32 < 2 ^ 31 then (v % 2 ^ 32 : Nat) else (v % 2 ^ 32 : Nat) - 2 ^ 32

/-! ## The inner mutex -/

/-- Modelled from the spec: the inner `interprocess_upgradable_mutex` is a Boost type and
not part of this repository; the specification describes it as a binary lock state with a
shared count.  The count is an `Int` so that every `unlock_sharable` shows in it. -/
structure Mutex where
  exclusive : Bool
  shared : Int
deriving DecidableEq

/-- Modelled from the spec: `try_lock` of the inner mutex succeeds when nobody holds it, in
either mode. -/
def Mutex.try_lock (m : Mutex) : Bool × Mutex :=
  if m.exclusive = false ∧ m.shared = 0 then (true, { m with exclusive := true }) else (false, m)

/-- Modelled from the spec: `unlock` of the inner mutex ends the exclusive hold. -/
def Mutex.unlock (m : Mutex) : Mutex := { m with exclusive := false }

/-- Modelled from the spec: `try_lock_sharable` of the inner mutex succeeds unless it is
held exclusively, and adds one to the shared count. -/
def Mutex.try_lock_sharable (m : Mutex) : Bool × Mutex :=
  if m.exclusive = false then (true, { m with shared := m.shared + 1 }) else (false, m)

/-- Modelled from the spec: `unlock_sharable` of the inner mutex takes one from the shared
count. -/
def Mutex.unlock_sharable (m : Mutex) : Mutex := { m with shared := m.shared - 1 }

/-- A call issued on the inner mutex, with its outcome where it has one. -/
inductive MutexCall where
  | try_lock (ok : Bool)
  | unlock
  | try_lock_sharable (ok : Bool)
  | unlock_sharable
deriving DecidableEq

/-! ## IPC_Lock -/

/-- The constant `MAX_SH_PROCS`. -/
def MAX_SH_PROCS : Nat := 64

/-- The members of `IPC_Lock`, and `log`, a ghost record of the calls issued on `mutex_`
(latest last). -/
structure IPC_Lock where
  mutex_ : Mutex
  ex_proc : Int
  sh_procs : IPC_Set
  log : List MutexCall
deriving DecidableEq

/-- The lock as `IPC_Lock() = default` leaves it: the mutex free, `ex_proc{0}`, the array
of `sh_procs` zeroed. -/
def IPC_Lock.fresh : IPC_Lock :=
  { mutex_ := ⟨false, 0⟩, ex_proc := 0, sh_procs := List.replicate MAX_SH_PROCS 0, log := [] }

/-- A word of `sh_procs` that `prune_sharable_procs` acts on: a pid (not the empty-slot
value 0) for which `proc_exists` answers `false`. -/
def deadSlot (os : OS) (v : Nat) : Bool := v ≠ 0 && proc_exists os (toPid v) = false

/-- No pid occupies two slots of the table. -/
def NoDupPids (arr : IPC_Set) : Prop :=
  ∀ i, i < arr.length → ∀ j, j < arr.length → load arr i = load arr j → load arr i ≠ 0 → i = j

/-- The body of the range-for of `prune_sharable_procs` run over the slots `idxs`. -/
def pruneLoop (fuel : Nat) (os : OS) : List Nat → IPC_Lock → Option IPC_Lock
  | [], l => some l
  | i :: idxs, l =>
    let sh_proc := load l.sh_procs i
    if sh_proc = 0 then pruneLoop fuel os idxs l
    else if proc_exists os (toPid sh_proc) = false then
      match remove fuel l.sh_procs sh_proc with
      | none => none
      | some r =>
        if r.removed then
          pruneLoop fuel os idxs
            { l with sh_procs := r.arr, mutex_ := l.mutex_.unlock_sharable,
                     log := l.log ++ [MutexCall.unlock_sharable] }
        else pruneLoop fuel os idxs { l with sh_procs := r.arr }
    else pruneLoop fuel os idxs l

/-- The call `IPC_Lock::prune_sharable_procs()`: every slot of `sh_procs.__array` in
order. -/
def prune_sharable_procs (fuel : Nat) (os : OS) (l : IPC_Lock) : Option IPC_Lock :=
  pruneLoop fuel os (List.range l.sh_procs.length) l

/-- One iteration of the retry loop of `IPC_Lock::lock()` run by process `pid`.  The
`Bool` says whether the loop was left; the store `ex_proc = getpid()` that follows the
loop is then part of the step. -/
def lock_iter (fuel : Nat) (os : OS) (pid : Int) (l : IPC_Lock) : Option (Bool × IPC_Lock) :=
  let r := l.mutex_.try_lock
  let l1 := { l with mutex_ := r.2, log := l.log ++ [MutexCall.try_lock r.1] }
  if r.1 then some (true, { l1 with ex_proc := pid })
  else if l1.ex_proc ≠ -1 then
    if proc_exists os l1.ex_proc then some (false, l1)
    else some (true, { l1 with ex_proc := pid })
  else
    match prune_sharable_procs fuel os l1 with
    | none => none
    | some l2 => some (false, l2)

/-- The call `IPC_Lock::lock()` by process `pid`, given `iters` iterations of its retry
loop. -/
def lock (fuel : Nat) (os : OS) (pid : Int) : (iters : Nat) → IPC_Lock → Option IPC_Lock
  | 0, _ => none
  | iters + 1, l =>
    match lock_iter fuel os pid l with
    | none => none
    | some (true, l1) => some l1
    | some (false, l1) => lock fuel os pid iters l1

/-- The call `IPC_Lock::unlock()`. -/
def unlock (l : IPC_Lock) : IPC_Lock :=
  { l with ex_proc := -1, mutex_ := l.mutex_.unlock, log := l.log ++ [MutexCall.unlock] }

/-- One iteration of the retry loop of `IPC_Lock::lock_sharable()`.  The `Bool` says
whether the loop was left; `sh_procs.insert(getpid())` that follows the loop is then part
of the step. -/
def lock_sharable_iter (fuel : Nat) (os : OS) (pid : Int) (l : IPC_Lock) :
    Option (Bool × IPC_Lock) :=
  let r := l.mutex_.try_lock_sharable
  let l1 := { l with mutex_ := r.2, log := l.log ++ [MutexCall.try_lock_sharable r.1] }
  if r.1 then
    match insert fuel l1.sh_procs (toU32 pid) with
    | none => none
    | some arr => some (true, { l1 with sh_procs := arr })
  else if l1.ex_proc ≠ -1 then
    if proc_exists os l1.ex_proc then some (false, l1)
    else
      some (false, { l1 with ex_proc := -1, mutex_ := l1.mutex_.unlock,
                             log := l1.log ++ [MutexCall.unlock] })
  else some (false, l1)

/-- The call `IPC_Lock::lock_sharable()` by process `pid`, given `iters` iterations of
its retry loop. -/
def lock_sharable (fuel : Nat) (os : OS) (pid : Int) :
    (iters : Nat) → IPC_Lock → Option IPC_Lock
  | 0, _ => none
  | iters + 1, l =>
    match lock_sharable_iter fuel os pid l with
    | none => none
    | some (true, l1) => some l1
    | some (false, l1) => lock_sharable fuel os pid iters l1

/-- The call `IPC_Lock::unlock_sharable()` by process `pid`. -/
def unlock_sharable (fuel : Nat) (pid : Int) (l : IPC_Lock) : Option IPC_Lock :=
  match remove fuel l.sh_procs (toU32 pid) with
  | none => none
  | some r =>
    if r.removed then
      some { l with sh_procs := r.arr, mutex_ := l.mutex_.unlock_sharable,
                    log := l.log ++ [MutexCall.unlock_sharable] }
    else some { l with sh_procs := r.arr }

/-! ## Processes sharing one lock -/

/-- Where a process stands with respect to the lock. -/
inductive Phase where
  | idle
  | in_lock
  | exclusive
  | in_lock_sharable
  | sharable
deriving DecidableEq

/-- What a scheduler can let happen next: one retry-loop iteration of an acquire, a whole
release, or the death of a process. -/
inductive Event where
  | lock (p : Int)
  | unlock (p : Int)
  | lock_sharable (p : Int)
  | unlock_sharable (p : Int)
  | die (p : Int)
deriving DecidableEq

/-- The lock in shared memory, the live processes, and the phase of every process. -/
structure Sys where
  lock : IPC_Lock
  alive : List Int
  phase : Int → Phase

/-- The process table of a system: `/proc/<pid>` exists exactly for the live pids. -/
def Sys.os (s : Sys) : OS := fun p => if p ∈ s.alive then (0, 0) else (-1, ENOENT)

/-- A freshly constructed lock shared by the live processes `procs`, all idle. -/
def Sys.init (procs : List Int) : Sys :=
  { lock := IPC_Lock.fresh, alive := procs, phase := fun _ => Phase.idle }

/-- One event.  A process acts only while alive, starts an acquire only when idle, and
releases only what it holds; an event that breaks this gives `none`. -/
def Sys.step (fuel : Nat) (s : Sys) : Event → Option Sys
  | Event.lock p =>
    if p ∈ s.alive ∧ (s.phase p = Phase.idle ∨ s.phase p = Phase.in_lock) then
      match lock_iter fuel s.os p s.lock with
      | none => none
      | some (done, l) =>
        some { s with lock := l,
                      phase := Function.update s.phase p
                        (if done then Phase.exclusive else Phase.in_lock) }
    else none
  | Event.unlock p =>
    if p ∈ s.alive ∧ s.phase p = Phase.exclusive then
      some { s with lock := unlock s.lock, phase := Function.update s.phase p Phase.idle }
    else none
  | Event.lock_sharable p =>
    if p ∈ s.alive ∧ (s.phase p = Phase.idle ∨ s.phase p = Phase.in_lock_sharable) then
      match lock_sharable_iter fuel s.os p s.lock with
      | none => none
      | some (done, l) =>
        some { s with lock := l,
                      phase := Function.update s.phase p
                        (if done then Phase.sharable else Phase.in_lock_sharable) }
    else none
  | Event.unlock_sharable p =>
    if p ∈ s.alive ∧ s.phase p = Phase.sharable then
      match unlock_sharable fuel p s.lock with
      | none => none
      | some l => some { s with lock := l, phase := Function.update s.phase p Phase.idle }
    else none
  | Event.die p =>
    if p ∈ s.alive then some { s with alive := s.alive.erase p } else none

/-- A schedule: events one after the other. -/
def Sys.run (fuel : Nat) : Sys → List Event → Option Sys
  | s, [] => some s
  | s, e :: es =>
    match Sys.step fuel s e with
    | none => none
    | some s1 => Sys.run fuel s1 es

/-! ## Single iterations and tallies -/

/-- Where the loop of `IPC_Set::insert` stands after an iteration: still probing, with the
table and the index the next iteration starts from, or returned with the table. -/
inductive InsertState where
  | probing (arr : IPC_Set) (idx : Nat)
  | returned (arr : IPC_Set)
deriving DecidableEq

/-- One iteration of the loop of `IPC_Set::insert`, entered with the unmasked index
`idx`: the body of `insertLoop` without the recursion. -/
def insertStep (elem : Nat) (arr : IPC_Set) (idx : Nat) : InsertState :=
  let idx := idx &&& (arr.length - 1)
  let probedElem := load arr idx
  if probedElem ≠ elem then
    if probedElem ≠ 0 then InsertState.probing arr (idx + 1)
    else
      match compare_exchange_strong arr idx 0 elem with
      | (true, arr1, _) => InsertState.returned arr1
      | (false, arr1, _) => InsertState.probing arr1 (idx + 1)
  else InsertState.returned arr

/-- The loop of `IPC_Set::insert` after `n` iterations (fewer when it has returned). -/
def insertAfter (elem : Nat) : Nat → IPC_Set → Nat → InsertState
  | 0, arr, idx => InsertState.probing arr idx
  | n + 1, arr, idx =>
    match insertStep elem arr idx with
    | InsertState.probing arr1 idx1 => insertAfter elem n arr1 idx1
    | InsertState.returned arr1 => InsertState.returned arr1

/-- What a history has done for one key: the table, the number of `insert(k)` calls that
wrote a slot, and the number of `remove(k)` calls that returned `true`. -/
structure Tally where
  arr : IPC_Set
  writes : Nat
  removals : Nat
deriving DecidableEq

/-- Run a history of calls and keep the tally for the key `k`.  The only store of `insert`
is its compare-exchange of an empty slot, so a call of `insert` wrote a slot exactly when
it returns a table other than the one it was given. -/
def runTally (k fuel : Nat) : Tally → List SetOp → Option Tally
  | t, [] => some t
  | t, SetOp.insert j :: ops =>
    match insert fuel t.arr j with
    | none => none
    | some arr1 =>
      runTally k fuel
        { t with arr := arr1,
                 writes := if j = k ∧ arr1 ≠ t.arr then t.writes + 1 else t.writes } ops
  | t, SetOp.remove j :: ops =>
    match remove fuel t.arr j with
    | none => none
    | some r =>
      runTally k fuel
        { t with arr := r.arr,
                 removals := if j = k ∧ r.removed = true then t.removals + 1 else t.removals }
        ops

/-- The number of occupied slots of a table. -/
def occupied (arr : IPC_Set) : Nat := arr.countP (fun v => v ≠ 0)

/-- A pid as the kernel hands them out: a non-zero value of the 32-bit `__pid_t`. -/
def validPid (p : Int) : Prop := -2 ^ 31 ≤ p ∧ p < 2 ^ 31 ∧ p ≠ 0

/-- What the members of a lock satisfy between iterations: 64 slots, no pid in two of
them, and a shared count equal to the number of occupied slots. -/
def LockInv (l : IPC_Lock) : Prop :=
  l.sh_procs.length = MAX_SH_PROCS ∧ NoDupPids l.sh_procs ∧
    l.mutex_.shared = (occupied l.sh_procs : Nat)

/-- What a system satisfies between events: the lock invariant, every live process has a
valid pid, and a live process whose pid is in a slot is inside its shared section. -/
def SysInv (s : Sys) : Prop :=
  LockInv s.lock ∧ (∀ p, p ∈ s.alive → validPid p) ∧
    (∀ p, p ∈ s.alive → toU32 p ∈ s.lock.sh_procs → s.phase p = Phase.sharable)

/-! ## Statements of `lock_sharable()` one at a time -/

/-- The loop of `lock_sharable()` from its test `mutex_.try_lock_sharable()` (line 138) to
the next test: the `Bool` is the outcome of the try; on failure the body of the loop has
run, on success the loop is left and `sh_procs.insert(getpid())` (line 155) is still to
come. -/
def lock_sharable_try (os : OS) (l : IPC_Lock) : Bool × IPC_Lock :=
  let r := l.mutex_.try_lock_sharable
  let l1 := { l with mutex_ := r.2, log := l.log ++ [MutexCall.try_lock_sharable r.1] }
  if r.1 then (true, l1)
  else if l1.ex_proc ≠ -1 then
    if proc_exists os l1.ex_proc then (false, l1)
    else
      (false, { l1 with ex_proc := -1, mutex_ := l1.mutex_.unlock,
                        log := l1.log ++ [MutexCall.unlock] })
  else (false, l1)

/-- The statement `sh_procs.insert(getpid())` that follows the loop of `lock_sharable()`
(line 155). -/
def lock_sharable_insert (fuel : Nat) (pid : Int) (l : IPC_Lock) : Option IPC_Lock :=
  match insert fuel l.sh_procs (toU32 pid) with
  | none => none
  | some arr => some { l with sh_procs := arr }

/-- The process an event is about. -/
def Event.proc : Event → Int
  | Event.lock p => p
  | Event.unlock p => p
  | Event.lock_sharable p => p
  | Event.unlock_sharable p => p
  | Event.die p => p

/-- What a scheduler can let happen next when the two statements of `lock_sharable()` are
steps of their own: a step of `Sys.step`, the try of line 138 (with the loop body when it
fails), or the insert of line 155. -/
inductive FineEvent where
  | whole (e : Event)
  | try_lock_sharable (p : Int)
  | insert (p : Int)
deriving DecidableEq

/-- A system together with the processes that have left the loop of `lock_sharable()`
(line 138 succeeded) and have not yet run line 155. -/
structure FineSys where
  sys : Sys
  between : List Int

/-- A freshly constructed lock shared by the live processes `procs`, all idle. -/
def FineSys.init (procs : List Int) : FineSys := { sys := Sys.init procs, between := [] }

/-- One event of the finer schedule.  A process between the two statements can only run
line 155 or die; otherwise the rules are those of `Sys.step`. -/
def FineSys.step (fuel : Nat) (s : FineSys) : FineEvent → Option FineSys
  | FineEvent.whole e =>
    if e = Event.die e.proc ∨ e.proc ∉ s.between then
      match Sys.step fuel s.sys e with
      | none => none
      | some t => some { s with sys := t }
    else none
  | FineEvent.try_lock_sharable p =>
    if p ∈ s.sys.alive ∧ p ∉ s.between ∧
        (s.sys.phase p = Phase.idle ∨ s.sys.phase p = Phase.in_lock_sharable) then
      let r := lock_sharable_try s.sys.os s.sys.lock
      some { sys := { s.sys with lock := r.2,
                                 phase := Function.update s.sys.phase p Phase.in_lock_sharable },
             between := if r.1 then p :: s.between else s.between }
    else none
  | FineEvent.insert p =>
    if p ∈ s.sys.alive ∧ p ∈ s.between then
      match lock_sharable_insert fuel p s.sys.lock with
      | none => none
      | some l =>
        some { sys := { s.sys with lock := l,
                                   phase := Function.update s.sys.phase p Phase.sharable },
               between := s.between.erase p }
    else none

/-- A finer schedule: events one after the other. -/
def FineSys.run (fuel : Nat) : FineSys → List FineEvent → Option FineSys
  | s, [] => some s
  | s, e :: es =>
    match FineSys.step fuel s e with
    | none => none
    | some s1 => FineSys.run fuel s1 es

/-! ## Example data -/

/-- A table of 8 slots: 7 in its home slot 4, and 23, which also hashes to 4, next to it. -/
def demoTable : IPC_Set := [0, 0, 0, 0, 7, 23, 0, 0]

/-- A process table in which 200 is the only live process. -/
def demoOS : OS := fun p => if p = 200 then (0, 0) else (-1, ENOENT)

/-- A lock that process 100 took exclusively before it died. -/
def demoWriterDied : IPC_Lock :=
  { mutex_ := ⟨true, 0⟩, ex_proc := 100, sh_procs := List.replicate MAX_SH_PROCS 0, log := [] }

/-- A lock held in shared mode by process 200 and by the dead process 235. -/
def demoReaders : IPC_Lock :=
  { mutex_ := ⟨false, 2⟩, ex_proc := -1,
    sh_procs := ((List.replicate MAX_SH_PROCS 0).set 0 235).set 50 200, log := [] }

/-- A table of 8 slots, none of them empty. -/
def demoFull : IPC_Set := [11, 12, 13, 14, 15, 16, 17, 18]

/-- A lock that the live process 200 holds exclusively. -/
def demoWriterAlive : IPC_Lock :=
  { mutex_ := ⟨true, 0⟩, ex_proc := 200, sh_procs := List.replicate MAX_SH_PROCS 0, log := [] }

/-- A lock whose mutex is held exclusively while `ex_proc` is -1. -/
def demoNoOwner : IPC_Lock :=
  { mutex_ := ⟨true, 0⟩, ex_proc := -1, sh_procs := List.replicate MAX_SH_PROCS 0, log := [] }

/-- A lock whose only shared holder, process 235, has died. -/
def demoDeadReader : IPC_Lock :=
  { mutex_ := ⟨false, 1⟩, ex_proc := -1,
    sh_procs := (List.replicate MAX_SH_PROCS 0).set 0 235, log := [] }

/-- A history on the keys 7 and 23, which share a home slot. -/
def demoHistory : List SetOp :=
  [SetOp.insert 7, SetOp.insert 23, SetOp.remove 7, SetOp.insert 23, SetOp.remove 23,
    SetOp.remove 23, SetOp.remove 23]

/-- A schedule of two processes: 100 reads and dies, 200 writes before and after. -/
def demoSchedule : List Event :=
  [Event.lock_sharable 100, Event.lock 200, Event.unlock 200, Event.die 100, Event.lock 200,
    Event.lock 200]

/-! ## Index arithmetic -/

theorem mask_eq_mod (idx e : Nat) : idx &&& (2 ^ e - 1) = idx % 2 ^ e :=
  Nat.and_pow_two_sub_one_eq_mod idx e

theorem succ_mod_add (idx d N : Nat) : (idx % N + 1 + d) % N = (idx + (d + 1)) % N := by
  rw [Nat.add_assoc, Nat.mod_add_mod, Nat.add_comm 1 d]

/-- Every slot is met within `N` steps of a wrapping linear probe. -/
theorem exists_offset (h j N : Nat) (hj : j < N) : ∃ d, d < N ∧ (h + d) % N = j := by
  have hN : 0 < N := by omega
  refine ⟨(j + (N - h % N)) % N, Nat.mod_lt _ hN, ?_⟩
  have hr : h % N < N := Nat.mod_lt _ hN
  rw [Nat.add_mod_mod]
  have h1 : h + (j + (N - h % N)) = j + N * (h / N + 1) := by
    have := Nat.div_add_mod h N
    rw [Nat.mul_add, Nat.mul_one]
    omega
  rw [h1, Nat.add_mul_mod_self_left, Nat.mod_eq_of_lt hj]

/-- The exit test of `remove` cannot fire before the last slot of a pass. -/
theorem exit_test_early (home t N : Nat) (hh : home < N) (ht : t + 1 < N) :
    (home + t) % N + 1 ≠ home := by
  by_cases hlt : home + t < N
  · rw [Nat.mod_eq_of_lt hlt]; omega
  · have h2 : (home + t) % N = home + t - N := by
      rw [Nat.mod_eq_sub_mod (by omega), Nat.mod_eq_of_lt (by omega)]
    rw [h2]; omega

/-! ## Slots of a table -/

theorem load_set (arr : IPC_Set) (i j v : Nat) :
    load (arr.set i v) j = if i = j ∧ j < arr.length then v else load arr j := by
  unfold load
  by_cases hj : j < arr.length
  · rw [List.getD_eq_getElem _ _ (by simpa using hj), List.getD_eq_getElem _ _ hj,
      List.getElem_set]
    by_cases hij : i = j <;> simp [hij, hj]
  · have h1 : (arr.set i v).getD j 0 = 0 := by
      rw [List.getD_eq_default]; simpa using hj
    have h2 : arr.getD j 0 = 0 := by
      rw [List.getD_eq_default]; omega
    rw [h1, h2, if_neg (fun h => hj h.2)]

theorem mem_iff_load (arr : IPC_Set) (k : Nat) :
    k ∈ arr ↔ ∃ i, i < arr.length ∧ load arr i = k := by
  unfold load
  rw [List.mem_iff_getElem]
  constructor
  · rintro ⟨i, hi, h⟩
    exact ⟨i, hi, by rw [List.getD_eq_getElem _ _ hi]; exact h⟩
  · rintro ⟨i, hi, h⟩
    exact ⟨i, hi, by rw [List.getD_eq_getElem _ _ hi] at h; exact h⟩

theorem load_ne_of_not_mem (arr : IPC_Set) (k : Nat) (hk : k ≠ 0) (habs : k ∉ arr) (i : Nat) :
    load arr i ≠ k := by
  intro h
  by_cases hi : i < arr.length
  · exact habs ((mem_iff_load arr k).2 ⟨i, hi, h⟩)
  · have : load arr i = 0 := by
      unfold load; rw [List.getD_eq_default]; omega
    omega

/-! ## insert -/

/-- From any entry index, `insert` walks over the occupied slots and writes its key into
the first empty one, `d` steps ahead. -/
theorem insertLoop_finds (k e : Nat) (arr : IPC_Set) (hlen : arr.length = 2 ^ e) (hk : k ≠ 0)
    (habs : ∀ i, load arr i ≠ k) :
    ∀ (d idx p fuel : Nat), d < fuel →
      load arr ((idx + d) % 2 ^ e) = 0 →
      (∀ d', d' < d → load arr ((idx + d') % 2 ^ e) ≠ 0) →
      insertLoop k fuel arr idx p = some (arr.set ((idx + d) % 2 ^ e) k, p + d + 1) := by
  intro d
  induction d with
  | zero =>
    intro idx p fuel hf h0 _
    obtain ⟨f, rfl⟩ : ∃ f, fuel = f + 1 := ⟨fuel - 1, by omega⟩
    simp only [Nat.add_zero] at h0
    simp [insertLoop, hlen, mask_eq_mod, h0, compare_exchange_strong, Ne.symm hk]
  | succ d ih =>
    intro idx p fuel hf h0 hne
    obtain ⟨f, rfl⟩ : ∃ f, fuel = f + 1 := ⟨fuel - 1, by omega⟩
    have h1 : load arr (idx % 2 ^ e) ≠ 0 := by simpa using hne 0 (by omega)
    have h2 := habs (idx % 2 ^ e)
    have h3 := ih (idx % 2 ^ e + 1) (p + 1) f (by omega)
      (by rw [succ_mod_add]; exact h0)
      (fun d' hd' => by rw [succ_mod_add]; exact hne (d' + 1) (by omega))
    rw [succ_mod_add] at h3
    simp only [insertLoop, hlen, mask_eq_mod, ne_eq, h1, h2, not_false_eq_true, if_true]
    rw [h3]
    congr 2
    omega

theorem masked_lt (arr : IPC_Set) (idx : Nat) (hpos : 0 < arr.length) :
    idx &&& (arr.length - 1) < arr.length := by
  have := @Nat.and_le_right idx (arr.length - 1)
  omega

/-- Whatever `insert` does, it leaves the length of the table and every non-zero word
alone, and its key is in the table when it returns. -/
theorem insertLoop_frame (elem : Nat) :
    ∀ (fuel : Nat) (arr : IPC_Set) (idx p : Nat) (res : IPC_Set × Nat),
      0 < arr.length → insertLoop elem fuel arr idx p = some res →
      res.1.length = arr.length ∧ (∀ i, load arr i ≠ 0 → load res.1 i = load arr i) ∧
        (elem ∈ res.1) := by
  intro fuel
  induction fuel with
  | zero => intro arr idx p res _ h; simp [insertLoop] at h
  | succ f ih =>
    intro arr idx p res hpos h
    have hlt := masked_lt arr idx hpos
    rw [insertLoop] at h
    split at h
    · rename_i hne
      split at h
      · exact ih _ _ _ _ hpos h
      · rename_i hz
        have hz0 : load arr (idx &&& (arr.length - 1)) = 0 := by simpa using hz
        simp only [compare_exchange_strong, hz0, if_true] at h
        cases h
        refine ⟨by simp, ?_, ?_⟩
        · intro i hi
          rw [load_set]
          split
          · rename_i hc
            rw [← hc.1] at hi
            exact absurd hz0 hi
          · rfl
        · refine (mem_iff_load _ _).2 ⟨idx &&& (arr.length - 1), by simpa using hlt, ?_⟩
          rw [load_set]
          simp [hlt]
    · rename_i heq
      cases h
      refine ⟨rfl, fun _ _ => rfl, ?_⟩
      exact (mem_iff_load _ _).2 ⟨idx &&& (arr.length - 1), hlt, by simpa using heq⟩

/-! ## remove -/

/-- From any entry index, `remove` walks over the slots that do not hold its key and
empties the first one that does, `d` steps ahead, provided the exit test does not fire on
the way. -/
theorem removeLoop_finds (k e init : Nat) (arr : IPC_Set) (hlen : arr.length = 2 ^ e) :
    ∀ (d idx p fuel : Nat), d < fuel →
      load arr ((idx + d) % 2 ^ e) = k →
      (∀ d', d' < d → load arr ((idx + d') % 2 ^ e) ≠ k) →
      (∀ d', d' < d → (idx + d') % 2 ^ e + 1 ≠ init) →
      removeLoop init fuel arr k idx p =
        some ⟨arr.set ((idx + d) % 2 ^ e) 0, true, p + d + 1⟩ := by
  intro d
  induction d with
  | zero =>
    intro idx p fuel hf h0 _ _
    obtain ⟨f, rfl⟩ : ∃ f, fuel = f + 1 := ⟨fuel - 1, by omega⟩
    simp only [Nat.add_zero] at h0
    simp [removeLoop, hlen, mask_eq_mod, h0, compare_exchange_strong]
  | succ d ih =>
    intro idx p fuel hf h0 hne hexit
    obtain ⟨f, rfl⟩ : ∃ f, fuel = f + 1 := ⟨fuel - 1, by omega⟩
    have h1 : load arr (idx % 2 ^ e) ≠ k := by simpa using hne 0 (by omega)
    have h2 : idx % 2 ^ e + 1 ≠ init := by simpa using hexit 0 (by omega)
    have h3 := ih (idx % 2 ^ e + 1) (p + 1) f (by omega)
      (by rw [succ_mod_add]; exact h0)
      (fun d' hd' => by rw [succ_mod_add]; exact hne (d' + 1) (by omega))
      (fun d' hd' => by rw [succ_mod_add]; exact hexit (d' + 1) (by omega))
    rw [succ_mod_add] at h3
    simp only [removeLoop, hlen, mask_eq_mod, ne_eq, h1, h2, not_false_eq_true, if_true,
      if_false]
    rw [h3]
    congr 2
    omega

/-- Whatever `remove` does, it leaves the length of the table and every word other than
its key alone; when it returns `false` it has changed nothing. -/
theorem removeLoop_frame (init : Nat) :
    ∀ (fuel : Nat) (arr : IPC_Set) (elem idx p : Nat) (res : RemoveResult),
      removeLoop init fuel arr elem idx p = some res →
      res.arr.length = arr.length ∧ (∀ i, load arr i ≠ elem → load res.arr i = load arr i) ∧
        (res.removed = false → res.arr = arr) := by
  intro fuel
  induction fuel with
  | zero => intro arr elem idx p res h; simp [removeLoop] at h
  | succ f ih =>
    intro arr elem idx p res h
    rw [removeLoop] at h
    split at h
    · rename_i heq
      have heq1 : load arr (idx &&& (arr.length - 1)) = elem := heq
      simp only [compare_exchange_strong, heq1, if_true] at h
      cases h
      refine ⟨by simp, ?_, by simp⟩
      intro i hi
      rw [load_set]
      split
      · rename_i hc
        rw [← hc.1] at hi
        exact absurd heq1 hi
      · rfl
    · split at h
      · exact ih _ _ _ _ _ h
      · cases h
        exact ⟨rfl, fun _ _ => rfl, fun _ => rfl⟩

/-- A key that is in no slot and hashes to slot 0 keeps `remove` in its loop for ever: the
incremented index runs over `1 .. size` and never equals `init_idx = 0`. -/
theorem removeLoop_spins (k : Nat) (arr : IPC_Set) (habs : ∀ i, load arr i ≠ k) :
    ∀ (fuel idx p : Nat), removeLoop 0 fuel arr k idx p = none := by
  intro fuel
  induction fuel with
  | zero => intro idx p; rfl
  | succ f ih =>
    intro idx p
    rw [removeLoop]
    simp only [habs, if_false, ne_eq, Nat.add_one_ne_zero, not_false_eq_true, if_true]
    exact ih _ _

/-- A key that is in no slot and hashes to a slot other than 0 makes `remove` load each of
the `N` slots once and return `false`, the table unchanged.  The lemma is stated for a loop
entered `r` loads before the end of the pass. -/
theorem removeLoop_absent (k e init : Nat) (arr : IPC_Set) (hlen : arr.length = 2 ^ e)
    (habs : ∀ i, load arr i ≠ k) (hinit0 : init ≠ 0) (hinit : init < 2 ^ e) :
    ∀ (r idx p fuel : Nat), r ≤ fuel → r + 1 ≤ 2 ^ e →
      idx % 2 ^ e = (init + (2 ^ e - (r + 1))) % 2 ^ e →
      removeLoop init (fuel + 1) arr k idx p = some ⟨arr, false, p + r + 1⟩ := by
  intro r
  induction r with
  | zero =>
    intro idx p fuel _ _ hidx
    have hm : idx % 2 ^ e = init - 1 := by
      rw [hidx]
      have h1 : init + (2 ^ e - (0 + 1)) = (init - 1) + 2 ^ e := by omega
      rw [h1, Nat.add_mod_right, Nat.mod_eq_of_lt (by omega)]
    have hexit : init - 1 + 1 = init := by omega
    simp [removeLoop, hlen, mask_eq_mod, hm, habs, hexit]
  | succ r ih =>
    intro idx p fuel hf hr hidx
    obtain ⟨f, rfl⟩ : ∃ f, fuel = f + 1 := ⟨fuel - 1, by omega⟩
    have hne : idx % 2 ^ e + 1 ≠ init := by
      rw [hidx]
      exact exit_test_early init _ _ hinit (by omega)
    have hnext : (idx % 2 ^ e + 1) % 2 ^ e = (init + (2 ^ e - (r + 1))) % 2 ^ e := by
      rw [hidx, Nat.mod_add_mod]
      congr 1
      omega
    have h3 := ih (idx % 2 ^ e + 1) (p + 1) f (by omega) (by omega) hnext
    rw [removeLoop]
    simp only [hlen, mask_eq_mod, habs, if_false, ne_eq, hne, not_false_eq_true, if_true]
    rw [h3]
    congr 2
    omega

/-- Outside slot 0, `remove` of an absent key makes one full pass and returns `false`. -/
theorem remove_absent (arr : IPC_Set) (e k : Nat) (hlen : arr.length = 2 ^ e)
    (habs : ∀ i, load arr i ≠ k) (hhome : hash k &&& (arr.length - 1) ≠ 0) :
    ∀ fuel, arr.length ≤ fuel → remove fuel arr k = some ⟨arr, false, arr.length⟩ := by
  intro fuel hfuel
  have hpos : 0 < 2 ^ e := Nat.two_pow_pos e
  rw [hlen, mask_eq_mod] at hhome
  have hlt : hash k % 2 ^ e < 2 ^ e := Nat.mod_lt _ hpos
  obtain ⟨f, rfl⟩ : ∃ f, fuel = f + 1 := ⟨fuel - 1, by omega⟩
  have := removeLoop_absent k e (hash k % 2 ^ e) arr hlen habs hhome hlt (2 ^ e - 1)
    (hash k % 2 ^ e) 0 f (by omega) (by omega)
    (by
      have h0 : 2 ^ e - (2 ^ e - 1 + 1) = 0 := by omega
      rw [h0, Nat.add_zero])
  simp only [remove, hlen, mask_eq_mod]
  rw [this]
  congr 2
  omega

/-- More fuel does not change what `insert` returns. -/
theorem insertLoop_mono (elem : Nat) :
    ∀ (fuel : Nat) (arr : IPC_Set) (idx p : Nat) (res : IPC_Set × Nat),
      insertLoop elem fuel arr idx p = some res →
      insertLoop elem (fuel + 1) arr idx p = some res := by
  intro fuel
  induction fuel with
  | zero => intro arr idx p res h; simp [insertLoop] at h
  | succ f ih =>
    intro arr idx p res h
    rw [insertLoop] at h ⊢
    split at h
    · rw [if_pos (by assumption)]
      split at h
      · rw [if_pos (by assumption)]
        exact ih _ _ _ _ h
      · rw [if_neg (by assumption)]
        split at h
        · exact h
        · exact ih _ _ _ _ h
    · rw [if_neg (by assumption)]
      exact h

/-- More fuel does not change what `remove` returns. -/
theorem removeLoop_mono (init : Nat) :
    ∀ (fuel : Nat) (arr : IPC_Set) (elem idx p : Nat) (res : RemoveResult),
      removeLoop init fuel arr elem idx p = some res →
      removeLoop init (fuel + 1) arr elem idx p = some res := by
  intro fuel
  induction fuel with
  | zero => intro arr elem idx p res h; simp [removeLoop] at h
  | succ f ih =>
    intro arr elem idx p res h
    rw [removeLoop] at h ⊢
    split at h
    · rw [if_pos (by assumption)]
      split at h
      · exact h
      · split at h
        · rw [if_pos (by assumption)]
          exact ih _ _ _ _ _ h
        · rw [if_neg (by assumption)]
          exact h
    · rw [if_neg (by assumption)]
      split at h
      · rw [if_pos (by assumption)]
        exact ih _ _ _ _ _ h
      · rw [if_neg (by assumption)]
        exact h

/-- A call of `insert` that returns within `fuel` iterations returns the same with any
larger budget. -/
theorem insert_mono (arr arr1 : IPC_Set) (k : Nat) :
    ∀ (extra fuel : Nat), insert fuel arr k = some arr1 → insert (fuel + extra) arr k = some arr1 := by
  intro extra
  induction extra with
  | zero => intro fuel h; exact h
  | succ n ih =>
    intro fuel h
    have h1 := ih fuel h
    simp only [insert, insertProbes] at h1 ⊢
    cases hres : insertLoop k (fuel + n) arr (hash k) 0 with
    | none => simp [hres] at h1
    | some res =>
      rw [hres] at h1
      rw [← Nat.add_assoc, insertLoop_mono k _ _ _ _ res hres]
      exact h1

/-- A call of `remove` that returns within `fuel` iterations returns the same with any
larger budget. -/
theorem remove_mono (arr : IPC_Set) (k : Nat) (r : RemoveResult) :
    ∀ (extra fuel : Nat), remove fuel arr k = some r → remove (fuel + extra) arr k = some r := by
  intro extra
  induction extra with
  | zero => intro fuel h; exact h
  | succ n ih =>
    intro fuel h
    have h1 := ih fuel h
    simp only [remove] at h1 ⊢
    rw [← Nat.add_assoc]
    exact removeLoop_mono _ _ _ _ _ _ r h1

/-- A sequence of calls that all return within `fuel` iterations gives the same table with
any larger budget. -/
theorem runOps_mono (extra fuel : Nat) :
    ∀ (ops : List SetOp) (arr arr2 : IPC_Set),
      runOps fuel arr ops = some arr2 → runOps (fuel + extra) arr ops = some arr2 := by
  intro ops
  induction ops with
  | nil => intro arr arr2 h; exact h
  | cons op ops ih =>
    intro arr arr2 h
    cases op with
    | insert j =>
      simp only [runOps] at h ⊢
      cases hres : insert fuel arr j with
      | none => simp [hres] at h
      | some a =>
        rw [hres] at h
        rw [insert_mono arr a j extra fuel hres]
        exact ih a arr2 h
    | remove j =>
      simp only [runOps] at h ⊢
      cases hres : remove fuel arr j with
      | none => simp [hres] at h
      | some r =>
        rw [hres] at h
        rw [remove_mono arr j r extra fuel hres]
        exact ih r.arr arr2 h

/-- A key that is in the table is removed by `remove` within one pass: the first slot
holding it on the probe path is emptied and `true` is returned. -/
theorem remove_of_mem (arr : IPC_Set) (e k : Nat) (hlen : arr.length = 2 ^ e) (hmem : k ∈ arr) :
    ∃ d j, d < arr.length ∧ j < arr.length ∧ load arr j = k ∧
      ∀ fuel, arr.length ≤ fuel → remove fuel arr k = some ⟨arr.set j 0, true, d + 1⟩ := by
  obtain ⟨i, hi, hik⟩ := (mem_iff_load arr k).1 hmem
  have hpos : 0 < 2 ^ e := Nat.two_pow_pos e
  have hhome : hash k % 2 ^ e < 2 ^ e := Nat.mod_lt _ hpos
  obtain ⟨d0, hd0, hd0i⟩ := exists_offset (hash k % 2 ^ e) i (2 ^ e) (by omega)
  have hex : ∃ d, load arr ((hash k % 2 ^ e + d) % 2 ^ e) = k := ⟨d0, by rw [hd0i]; exact hik⟩
  have hfind := Nat.find_spec hex
  have hmin : ∀ d', d' < Nat.find hex → load arr ((hash k % 2 ^ e + d') % 2 ^ e) ≠ k :=
    fun d' hd' => Nat.find_min hex hd'
  have hle : Nat.find hex ≤ d0 := Nat.find_min' hex (by rw [hd0i]; exact hik)
  refine ⟨Nat.find hex, (hash k % 2 ^ e + Nat.find hex) % 2 ^ e, by omega,
    by rw [hlen]; exact Nat.mod_lt _ hpos, hfind, ?_⟩
  intro fuel hfuel
  have := removeLoop_finds k e (hash k % 2 ^ e) arr hlen (Nat.find hex) (hash k % 2 ^ e) 0 fuel
    (by omega) hfind hmin
    (fun d' hd' => exit_test_early _ _ _ hhome (by omega))
  simp only [remove, hlen, mask_eq_mod]
  rw [this]
  simp

/-- The effect of `insert` of a key that is not in a table with an empty slot. -/
theorem insertProbes_absent (arr : IPC_Set) (e k : Nat) (hlen : arr.length = 2 ^ e)
    (hk : k ≠ 0) (habs : k ∉ arr) (hempty : 0 ∈ arr) :
    ∃ d slot, d < arr.length ∧
      slot = ((hash k &&& (arr.length - 1)) + d) % arr.length ∧
      load arr slot = 0 ∧
      (∀ d', d' < d → load arr (((hash k &&& (arr.length - 1)) + d') % arr.length) ≠ 0) ∧
      (∀ fuel, arr.length ≤ fuel → insertProbes fuel arr k = some (arr.set slot k, d + 1)) ∧
      load (arr.set slot k) slot = k ∧
      ∀ i, i ≠ slot → load (arr.set slot k) i = load arr i := by
  obtain ⟨i, hi, hik⟩ := (mem_iff_load arr 0).1 hempty
  have hpos : 0 < 2 ^ e := Nat.two_pow_pos e
  obtain ⟨d0, hd0, hd0i⟩ := exists_offset (hash k) i (2 ^ e) (by omega)
  have hex : ∃ d, load arr ((hash k + d) % 2 ^ e) = 0 := ⟨d0, by rw [hd0i]; exact hik⟩
  have hfind := Nat.find_spec hex
  have hmin : ∀ d', d' < Nat.find hex → load arr ((hash k + d') % 2 ^ e) ≠ 0 :=
    fun d' hd' => Nat.find_min hex hd'
  have hle : Nat.find hex ≤ d0 := Nat.find_min' hex (by rw [hd0i]; exact hik)
  have hslot : (hash k + Nat.find hex) % 2 ^ e < arr.length := by
    rw [hlen]; exact Nat.mod_lt _ hpos
  simp only [hlen, mask_eq_mod, Nat.mod_add_mod]
  refine ⟨Nat.find hex, (hash k + Nat.find hex) % 2 ^ e, by omega, rfl, hfind, hmin, ?_, ?_, ?_⟩
  · intro fuel hfuel
    have := insertLoop_finds k e arr hlen hk (load_ne_of_not_mem arr k hk habs)
      (Nat.find hex) (hash k) 0 fuel (by omega) hfind hmin
    simp only [insertProbes]
    rw [this]
    simp
  · rw [load_set, if_pos ⟨rfl, hslot⟩]
  · intro j hj
    rw [load_set, if_neg (fun h => hj h.1.symm)]

/-- A non-zero key that is in the table is still there after a returning `insert` or
`remove` of another key. -/
theorem mem_after_op (fuel : Nat) (arr arr1 : IPC_Set) (k : Nat) (op : SetOp) (hk : k ≠ 0)
    (hpos : 0 < arr.length) (hmem : k ∈ arr) (hop : op.key ≠ k)
    (hrun : runOps fuel arr [op] = some arr1) : 0 < arr1.length ∧ k ∈ arr1 := by
  obtain ⟨i, hi, hik⟩ := (mem_iff_load arr k).1 hmem
  cases op with
  | insert j =>
    simp only [runOps, insert, insertProbes] at hrun
    cases hres : insertLoop j fuel arr (hash j) 0 with
    | none => simp [hres] at hrun
    | some res =>
      simp only [hres, Option.map_some', Option.some.injEq] at hrun
      obtain ⟨h1, h2, _⟩ := insertLoop_frame j fuel arr (hash j) 0 res hpos hres
      subst hrun
      exact ⟨by omega, (mem_iff_load _ _).2 ⟨i, by omega, by rw [h2 i (by omega)]; exact hik⟩⟩
  | remove j =>
    simp only [runOps, remove] at hrun
    cases hres : removeLoop (hash j &&& (arr.length - 1)) fuel arr j
        (hash j &&& (arr.length - 1)) 0 with
    | none => simp [hres] at hrun
    | some res =>
      simp only [hres, Option.some.injEq] at hrun
      obtain ⟨h1, h2, _⟩ := removeLoop_frame _ fuel arr j _ 0 res hres
      subst hrun
      have hne : load arr i ≠ j := by
        rw [hik]; exact fun h => hop (by simpa [SetOp.key] using h.symm)
      exact ⟨by omega, (mem_iff_load _ _).2 ⟨i, by omega, by rw [h2 i hne]; exact hik⟩⟩

theorem runOps_cons (fuel : Nat) (arr arr2 : IPC_Set) (op : SetOp) (ops : List SetOp)
    (h : runOps fuel arr (op :: ops) = some arr2) :
    ∃ arr1, runOps fuel arr [op] = some arr1 ∧ runOps fuel arr1 ops = some arr2 := by
  cases op with
  | insert j =>
    simp only [runOps] at h ⊢
    cases hres : insert fuel arr j with
    | none => simp [hres] at h
    | some a => exact ⟨a, by simp, by simpa [hres] using h⟩
  | remove j =>
    simp only [runOps] at h ⊢
    cases hres : remove fuel arr j with
    | none => simp [hres] at h
    | some r => exact ⟨r.arr, by simp, by simpa [hres] using h⟩

theorem mem_after_ops (fuel : Nat) (k : Nat) (hk : k ≠ 0) :
    ∀ (ops : List SetOp) (arr arr2 : IPC_Set), 0 < arr.length → k ∈ arr →
      (∀ op, op ∈ ops → op.key ≠ k) → runOps fuel arr ops = some arr2 → k ∈ arr2 := by
  intro ops
  induction ops with
  | nil => intro arr arr2 _ hmem _ h; simp only [runOps, Option.some.injEq] at h; exact h ▸ hmem
  | cons op ops ih =>
    intro arr arr2 hpos hmem hops h
    obtain ⟨arr1, h1, h2⟩ := runOps_cons fuel arr arr2 op ops h
    obtain ⟨hpos1, hmem1⟩ := mem_after_op fuel arr arr1 k op hk hpos hmem
      (hops op (List.mem_cons_self _ _)) h1
    exact ih arr1 arr2 hpos1 hmem1 (fun o ho => hops o (List.mem_cons_of_mem _ ho)) h2

/-! ## Theorems on IPC_Set -/

/-- C4: in a table of `N = 2 ^ e` slots where the key `k ≠ 0` occupies exactly the slot `j`,
`remove(k)` returns `true` after loading at most `N` slots; afterwards `k` is in no slot
and every slot other than `j` holds what it held before. -/
theorem remove_present (arr : IPC_Set) (e k j : Nat) (hlen : arr.length = 2 ^ e) (hk : k ≠ 0)
    (hj : j < arr.length) (huniq : ∀ i, i < arr.length → (load arr i = k ↔ i = j)) :
    ∃ r, (∀ fuel, arr.length ≤ fuel → remove fuel arr k = some r) ∧
      r.removed = true ∧ r.probes ≤ arr.length ∧ k ∉ r.arr ∧
      r.arr.length = arr.length ∧ ∀ i, i ≠ j → load r.arr i = load arr i := by
  have hmem : k ∈ arr := (mem_iff_load arr k).2 ⟨j, hj, (huniq j hj).2 rfl⟩
  obtain ⟨d, j1, hd, hj1, hj1k, hrun⟩ := remove_of_mem arr e k hlen hmem
  have hjj : j1 = j := (huniq j1 hj1).1 hj1k
  subst hjj
  refine ⟨⟨arr.set j1 0, true, d + 1⟩, hrun, rfl, by simpa using hd, ?_, by simp, ?_⟩
  · intro hin
    obtain ⟨i, hi, hik⟩ := (mem_iff_load _ _).1 hin
    rw [load_set] at hik
    split at hik
    · exact hk hik.symm
    · rename_i hc
      have hi1 : i < arr.length := by simpa using hi
      have := (huniq i hi1).1 hik
      exact hc ⟨this.symm, hi1⟩
  · intro i hi
    rw [load_set, if_neg (fun h => hi h.1.symm)]

/-- C5: in a table of `N = 2 ^ e` slots that has an empty slot and does not hold the key
`k ≠ 0`, `insert(k)` returns after loading at most `N` slots; it writes `k` into the first
empty slot on the wrapping linear probe from `hash(k) & (N - 1)` and changes no other
slot. -/
theorem insert_postcondition (arr : IPC_Set) (e k : Nat) (hlen : arr.length = 2 ^ e)
    (hk : k ≠ 0) (habs : k ∉ arr) (hempty : 0 ∈ arr) :
    ∃ d slot, d < arr.length ∧
      slot = ((hash k &&& (arr.length - 1)) + d) % arr.length ∧
      load arr slot = 0 ∧
      (∀ d', d' < d → load arr (((hash k &&& (arr.length - 1)) + d') % arr.length) ≠ 0) ∧
      (∀ fuel, arr.length ≤ fuel → insertProbes fuel arr k = some (arr.set slot k, d + 1)) ∧
      load (arr.set slot k) slot = k ∧
      ∀ i, i ≠ slot → load (arr.set slot k) i = load arr i :=
  insertProbes_absent arr e k hlen hk habs hempty

/-- C10: when `insert(k)`, `k ≠ 0`, returns on a table of `2 ^ e` slots, `k` is in a slot;
and `k` is still in a slot after any further calls `insert(j)`, `remove(j)` with `j ≠ k`
that all return. -/
theorem membership_persists (arr arr1 arr2 : IPC_Set) (e k fuel fuel2 : Nat)
    (ops : List SetOp) (hlen : arr.length = 2 ^ e) (hk : k ≠ 0)
    (hins : insert fuel arr k = some arr1)
    (hops : ∀ op, op ∈ ops → op.key ≠ k)
    (hrun : runOps fuel2 arr1 ops = some arr2) : k ∈ arr1 ∧ k ∈ arr2 := by
  have hpos : 0 < arr.length := by rw [hlen]; exact Nat.two_pow_pos e
  simp only [insert, insertProbes] at hins
  cases hres : insertLoop k fuel arr (hash k) 0 with
  | none => simp [hres] at hins
  | some res =>
    simp only [hres, Option.map_some', Option.some.injEq] at hins
    obtain ⟨h1, _, h3⟩ := insertLoop_frame k fuel arr (hash k) 0 res hpos hres
    subst hins
    exact ⟨h3, mem_after_ops fuel2 k hk ops res.1 arr2 (by omega) h3 hops hrun⟩

/-- C3, evaluated: on an empty table of 8 slots the keys 7 and 23 share the home slot 4.
After `insert(7)`, `insert(23)`, `remove(7)` the key 23 sits in slot 5 behind an empty
slot 4, so `insert(23)` writes a second copy into slot 4; `remove(23)` then returns `true`
having emptied slot 4 only, and 23 is still in the snapshot although the set of the
specification is empty. -/
theorem set_semantics_duplicate :
    runOps 8 (List.replicate 8 0) [SetOp.insert 7, SetOp.insert 23, SetOp.remove 7]
        = some [0, 0, 0, 0, 0, 23, 0, 0] ∧
      insert 8 [0, 0, 0, 0, 0, 23, 0, 0] 23 = some [0, 0, 0, 0, 23, 23, 0, 0] ∧
      remove 8 [0, 0, 0, 0, 23, 23, 0, 0] 23 = some ⟨[0, 0, 0, 0, 0, 23, 0, 0], true, 1⟩ ∧
      runOps 8 (List.replicate 8 0)
        [SetOp.insert 7, SetOp.insert 23, SetOp.remove 7, SetOp.insert 23, SetOp.remove 23]
        = some [0, 0, 0, 0, 0, 23, 0, 0] ∧
      23 ∈ snapshot [0, 0, 0, 0, 0, 23, 0, 0] ∧
      specSet [SetOp.insert 7, SetOp.insert 23, SetOp.remove 7, SetOp.insert 23,
        SetOp.remove 23] = ∅ := by
  decide

/-! ## Theorems on IPC_Lock -/

/-- A process whose pid is in no slot and hashes to slot 0 never comes back from
`unlock_sharable`. -/
theorem unlock_sharable_spins (l : IPC_Lock) (p : Int) (hp : toU32 p ≠ 0)
    (hhome : hash (toU32 p) &&& (l.sh_procs.length - 1) = 0) (habs : toU32 p ∉ l.sh_procs) :
    ∀ fuel, unlock_sharable fuel p l = none := by
  intro fuel
  simp only [unlock_sharable, remove, hhome]
  rw [removeLoop_spins (toU32 p) l.sh_procs (load_ne_of_not_mem _ _ hp habs)]

/-- A process whose pid is in no slot and hashes to a slot other than 0 comes back from
`unlock_sharable` with the lock as it was: no call on the inner mutex, no slot changed. -/
theorem unlock_sharable_absent (l : IPC_Lock) (p : Int) (hlen : l.sh_procs.length = MAX_SH_PROCS)
    (hp : toU32 p ≠ 0) (hhome : hash (toU32 p) &&& (l.sh_procs.length - 1) ≠ 0)
    (habs : toU32 p ∉ l.sh_procs) :
    ∀ fuel, MAX_SH_PROCS ≤ fuel → unlock_sharable fuel p l = some l := by
  intro fuel hfuel
  have hlen6 : l.sh_procs.length = 2 ^ 6 := hlen
  have := remove_absent l.sh_procs 6 (toU32 p) hlen6 (load_ne_of_not_mem _ _ hp habs) hhome fuel
    (by omega)
  simp [unlock_sharable, this]

/-- C2, evaluated: the pid 235 hashes to slot 0 of the 64 slots.  When it is in no slot of
`sh_procs` (here every slot is empty, as after pruning), `unlock_sharable()` called by
process 235 does not return, however many loop iterations it is given. -/
theorem unlock_sharable_pruned_hangs (fuel : Nat) (m : Mutex) (x : Int) (log : List MutexCall) :
    hash (toU32 235) &&& (MAX_SH_PROCS - 1) = 0 ∧
      toU32 235 ∉ List.replicate MAX_SH_PROCS 0 ∧
      unlock_sharable fuel 235 ⟨m, x, List.replicate MAX_SH_PROCS 0, log⟩ = none :=
  ⟨by decide, by decide,
    unlock_sharable_spins ⟨m, x, List.replicate MAX_SH_PROCS 0, log⟩ 235 (by decide)
      (show hash (toU32 235) &&& ((List.replicate MAX_SH_PROCS 0).length - 1) = 0 by decide)
      (show toU32 235 ∉ List.replicate MAX_SH_PROCS 0 by decide) fuel⟩

theorem map_load_range (arr : IPC_Set) : (List.range arr.length).map (load arr) = arr := by
  apply List.ext_getElem
  · simp
  · intro n h1 h2
    simp only [List.getElem_map, List.getElem_range, load]
    exact List.getD_eq_getElem _ _ h2

theorem noDupPids_set_zero (arr : IPC_Set) (i : Nat) (h : NoDupPids arr) :
    NoDupPids (arr.set i 0) := by
  intro a ha b hb hab hne
  have ha1 : a < arr.length := by simpa using ha
  have hb1 : b < arr.length := by simpa using hb
  rw [load_set] at hne
  rw [load_set, load_set] at hab
  by_cases hia : i = a ∧ a < arr.length
  · rw [if_pos hia] at hne; exact absurd rfl hne
  · rw [if_neg hia] at hne hab
    by_cases hib : i = b ∧ b < arr.length
    · rw [if_pos hib] at hab; exact absurd hab hne
    · rw [if_neg hib] at hab
      exact h a ha1 b hb1 hab hne

/-- The loop of `prune_sharable_procs` over distinct slots `idxs` of a table without
duplicate pids: it returns, empties exactly the slots of `idxs` that held a dead pid, and
issues one `unlock_sharable` for each. -/
theorem pruneLoop_spec (os : OS) (e fuel : Nat) (hfuel : 2 ^ e ≤ fuel) :
    ∀ (idxs : List Nat) (l : IPC_Lock), l.sh_procs.length = 2 ^ e → NoDupPids l.sh_procs →
      idxs.Nodup → (∀ i, i ∈ idxs → i < 2 ^ e) →
      ∃ l1, pruneLoop fuel os idxs l = some l1 ∧ l1.ex_proc = l.ex_proc ∧
        l1.sh_procs.length = 2 ^ e ∧
        (∀ j, load l1.sh_procs j =
          if j ∈ idxs ∧ deadSlot os (load l.sh_procs j) = true then 0
          else load l.sh_procs j) ∧
        l1.log = l.log ++ List.replicate
          (idxs.countP (fun i => deadSlot os (load l.sh_procs i))) MutexCall.unlock_sharable ∧
        l1.mutex_.exclusive = l.mutex_.exclusive ∧
        l1.mutex_.shared =
          l.mutex_.shared - (idxs.countP (fun i => deadSlot os (load l.sh_procs i)) : Nat) := by
  intro idxs
  induction idxs with
  | nil =>
    intro l hlen _ _ _
    exact ⟨l, rfl, rfl, hlen, by simp, by simp, rfl, by simp⟩
  | cons i idxs ih =>
    intro l hlen hnd hidx hbound
    have hi : i < 2 ^ e := hbound i (List.mem_cons_self _ _)
    obtain ⟨hni, hidx1⟩ := List.nodup_cons.1 hidx
    have hbound1 : ∀ a, a ∈ idxs → a < 2 ^ e := fun a ha => hbound a (List.mem_cons_of_mem _ ha)
    by_cases hdead : deadSlot os (load l.sh_procs i) = true
    · have hd2 : load l.sh_procs i ≠ 0 ∧ proc_exists os (toPid (load l.sh_procs i)) = false := by
        simpa [deadSlot] using hdead
      have hmem : load l.sh_procs i ∈ l.sh_procs :=
        (mem_iff_load _ _).2 ⟨i, by omega, rfl⟩
      obtain ⟨d, j, _, hj, hjv, hrun⟩ := remove_of_mem l.sh_procs e _ hlen hmem
      have hji : j = i := hnd j hj i (by omega) hjv (by rw [hjv]; exact hd2.1)
      subst hji
      have hrem := hrun fuel (by omega)
      obtain ⟨l1, hl1, hex1, hlen1, hslots, hlog, hexcl, hsh⟩ :=
        ih { l with sh_procs := l.sh_procs.set j 0, mutex_ := l.mutex_.unlock_sharable,
                    log := l.log ++ [MutexCall.unlock_sharable] }
          (by simpa using hlen) (noDupPids_set_zero _ _ hnd) hidx1 hbound1
      have hcount : idxs.countP (fun a => deadSlot os (load (l.sh_procs.set j 0) a)) =
          idxs.countP (fun a => deadSlot os (load l.sh_procs a)) := by
        apply List.countP_congr
        intro a ha
        have haj : ¬ (j = a ∧ a < l.sh_procs.length) := fun h => hni (h.1 ▸ ha)
        rw [load_set, if_neg haj]
      simp only [hcount] at hlog hsh
      have hcons : (j :: idxs).countP (fun a => deadSlot os (load l.sh_procs a)) =
          idxs.countP (fun a => deadSlot os (load l.sh_procs a)) + 1 := by
        simp [List.countP_cons, hdead]
      refine ⟨l1, ?_, hex1, hlen1, ?_, ?_, ?_, ?_⟩
      · simp only [pruneLoop, hd2.1, hd2.2, if_false, if_true, hrem]
        exact hl1
      · intro a
        rw [hslots a, load_set]
        by_cases haj : j = a
        · subst haj
          simp [hni, hdead, hj]
        · have : ¬ (j = a ∧ a < l.sh_procs.length) := fun h => haj h.1
          simp [this, List.mem_cons, Ne.symm haj]
      · rw [hlog, hcons, List.replicate_succ]
        simp
      · exact hexcl
      · rw [hsh, hcons]
        simp only [Mutex.unlock_sharable]
        push_cast
        ring
    · obtain ⟨l1, hl1, hex1, hlen1, hslots, hlog, hexcl, hsh⟩ := ih l hlen hnd hidx1 hbound1
      have hd2 : load l.sh_procs i = 0 ∨ proc_exists os (toPid (load l.sh_procs i)) = true := by
        by_cases h0 : load l.sh_procs i = 0
        · exact Or.inl h0
        · right
          simpa [deadSlot, h0] using hdead
      have hcons : (i :: idxs).countP (fun a => deadSlot os (load l.sh_procs a)) =
          idxs.countP (fun a => deadSlot os (load l.sh_procs a)) := by
        simp [List.countP_cons, hdead]
      refine ⟨l1, ?_, hex1, hlen1, ?_, ?_, hexcl, ?_⟩
      · rcases hd2 with h0 | hlive
        · simp only [pruneLoop, h0, if_true]
          exact hl1
        · by_cases h0 : load l.sh_procs i = 0
          · simp only [pruneLoop, h0, if_true]
            exact hl1
          · simp only [pruneLoop, h0, if_false, hlive]
            exact hl1
      · intro a
        rw [hslots a]
        by_cases hai : a = i
        · subst hai
          simp [hni, hdead]
        · simp [List.mem_cons, hai]
      · rw [hlog, hcons]
      · rw [hsh, hcons]

/-- C6: on a lock whose 64 slots hold no pid twice, `prune_sharable_procs()` returns; every
slot that held a pid for which `proc_exists` is false is empty afterwards and every other
slot is unchanged; `unlock_sharable` is called on the inner mutex once per emptied slot
and nothing else is called, so the shared count drops by the number of dead pids;
`ex_proc` and the exclusive state are unchanged. -/
theorem prune_exact (os : OS) (l : IPC_Lock) (hlen : l.sh_procs.length = MAX_SH_PROCS)
    (hnd : NoDupPids l.sh_procs) :
    ∃ l1, prune_sharable_procs MAX_SH_PROCS os l = some l1 ∧
      l1.ex_proc = l.ex_proc ∧
      l1.sh_procs.length = MAX_SH_PROCS ∧
      (∀ i, i < MAX_SH_PROCS → deadSlot os (load l.sh_procs i) = true →
        load l1.sh_procs i = 0) ∧
      (∀ i, i < MAX_SH_PROCS → deadSlot os (load l.sh_procs i) = false →
        load l1.sh_procs i = load l.sh_procs i) ∧
      l1.log = l.log ++ List.replicate (l.sh_procs.countP (deadSlot os))
        MutexCall.unlock_sharable ∧
      l1.mutex_.exclusive = l.mutex_.exclusive ∧
      l1.mutex_.shared = l.mutex_.shared - (l.sh_procs.countP (deadSlot os) : Nat) := by
  have hlen6 : l.sh_procs.length = 2 ^ 6 := hlen
  obtain ⟨l1, hl1, hex1, hlen1, hslots, hlog, hexcl, hsh⟩ :=
    pruneLoop_spec os 6 MAX_SH_PROCS (by decide) (List.range (2 ^ 6)) l hlen6 hnd
      (List.nodup_range _) (fun i hi => List.mem_range.1 hi)
  have hcount : (List.range (2 ^ 6)).countP (fun i => deadSlot os (load l.sh_procs i)) =
      l.sh_procs.countP (deadSlot os) := by
    have h := List.countP_map (deadSlot os) (load l.sh_procs) (List.range (2 ^ 6))
    rw [← hlen6, map_load_range] at h
    rw [h, ← hlen6]
    rfl
  rw [hcount] at hlog hsh
  refine ⟨l1, ?_, hex1, hlen1, ?_, ?_, hlog, hexcl, hsh⟩
  · simp only [prune_sharable_procs, hlen6]
    exact hl1
  · intro i hi hd
    rw [hslots i, if_pos ⟨List.mem_range.2 hi, hd⟩]
  · intro i _ hd
    rw [hslots i, if_neg (fun h => by simp [hd] at h)]

/-- C7: when `try_lock` fails and `ex_proc` holds a pid other than -1 for which
`proc_exists` is false, `lock()` by process `q` leaves its loop in the first iteration and
returns with `ex_proc == q`; the only call it issued on the inner mutex is that one
`try_lock`, the mutex and every slot of `sh_procs` are as before. -/
theorem writer_crash_absorbed (fuel iters : Nat) (os : OS) (q : Int) (l : IPC_Lock)
    (hfail : l.mutex_.try_lock.1 = false) (hP : l.ex_proc ≠ -1)
    (hdead : proc_exists os l.ex_proc = false) :
    ∃ l1, lock fuel os q (iters + 1) l = some l1 ∧ l1.ex_proc = q ∧
      l1.log = l.log ++ [MutexCall.try_lock false] ∧ l1.mutex_ = l.mutex_ ∧
      l1.sh_procs = l.sh_procs := by
  have hm : l.mutex_.try_lock.2 = l.mutex_ := by
    unfold Mutex.try_lock at hfail ⊢
    split <;> simp_all
  refine ⟨{ l with ex_proc := q, log := l.log ++ [MutexCall.try_lock false] }, ?_, rfl, rfl,
    rfl, rfl⟩
  simp [lock, lock_iter, hfail, hP, hdead, hm]

/-- C8: when the inner mutex is held exclusively, `ex_proc` holds a pid other than -1 for
which `proc_exists` is false, and the 64 slots of `sh_procs` have an empty one and do not
hold the caller's pid, `lock_sharable()` by process `q` returns in its second iteration:
the calls on the mutex are a failed `try_lock_sharable`, `unlock`, a successful
`try_lock_sharable`; afterwards `ex_proc == -1`, the mutex is not held exclusively, the
shared count is one higher, and `q` is written into an empty slot, no other slot
changed. -/
theorem writer_crash_seen_by_reader (os : OS) (q : Int) (l : IPC_Lock)
    (hex : l.mutex_.exclusive = true) (hP : l.ex_proc ≠ -1)
    (hdead : proc_exists os l.ex_proc = false)
    (hlen : l.sh_procs.length = MAX_SH_PROCS) (hempty : 0 ∈ l.sh_procs)
    (hq : toU32 q ∉ l.sh_procs) :
    ∃ l1 slot, lock_sharable MAX_SH_PROCS os q 1 l = none ∧
      lock_sharable MAX_SH_PROCS os q 2 l = some l1 ∧
      l1.ex_proc = -1 ∧ l1.mutex_.exclusive = false ∧
      l1.mutex_.shared = l.mutex_.shared + 1 ∧
      l1.log = l.log ++ [MutexCall.try_lock_sharable false, MutexCall.unlock,
        MutexCall.try_lock_sharable true] ∧
      slot < MAX_SH_PROCS ∧ load l.sh_procs slot = 0 ∧
      l1.sh_procs = l.sh_procs.set slot (toU32 q) ∧
      load l1.sh_procs slot = toU32 q ∧
      ∀ i, i ≠ slot → load l1.sh_procs i = load l.sh_procs i := by
  have hk : toU32 q ≠ 0 := fun h => hq (h ▸ hempty)
  have hlen6 : l.sh_procs.length = 2 ^ 6 := hlen
  obtain ⟨d, slot, hd, hslot, h0, _, hrun, hst, hframe⟩ :=
    insertProbes_absent l.sh_procs 6 (toU32 q) hlen6 hk hq hempty
  have hins : insert MAX_SH_PROCS l.sh_procs (toU32 q) = some (l.sh_procs.set slot (toU32 q)) := by
    simp [insert, hrun MAX_SH_PROCS (by omega)]
  have hslotlt : slot < MAX_SH_PROCS := by
    rw [hslot, ← hlen]
    exact Nat.mod_lt _ (by omega)
  refine ⟨{ mutex_ := ⟨false, l.mutex_.shared + 1⟩, ex_proc := -1,
            sh_procs := l.sh_procs.set slot (toU32 q),
            log := l.log ++ [MutexCall.try_lock_sharable false, MutexCall.unlock,
              MutexCall.try_lock_sharable true] }, slot, ?_, ?_, rfl, rfl, rfl, rfl, hslotlt, h0,
    rfl, hst, hframe⟩
  · simp [lock_sharable, lock_sharable_iter, Mutex.try_lock_sharable, hex, hP, hdead]
  · simp [lock_sharable, lock_sharable_iter, Mutex.try_lock_sharable, Mutex.unlock, hex, hP,
      hdead, hins]

/-! ## Theorems on processes sharing the lock -/

/-- C1, evaluated: on a freshly constructed lock, with the live processes 100 and 200 and
no process 0, process 100 completes `lock_sharable()` and then process 200 completes
`lock()` in its first iteration: `try_lock` fails, `ex_proc` is still its initial value 0,
which is not -1, and `proc_exists(0)` is false, so the loop is left.  Both are then inside
their critical sections, the inner mutex still counting one shared holder. -/
theorem mutual_exclusion_broken :
    (Sys.run 64 (Sys.init [100, 200]) [Event.lock_sharable 100, Event.lock 200]).map
        (fun s => (s.phase 100, s.phase 200, s.alive, s.lock.ex_proc, s.lock.mutex_,
          load s.lock.sh_procs 42, s.lock.log))
      = some (Phase.sharable, Phase.exclusive, [100, 200], 200, ⟨false, 1⟩, 100,
          [MutexCall.try_lock_sharable true, MutexCall.try_lock false]) := by
  rfl

/-- C9, evaluated: on a freshly constructed lock one completed `lock_sharable()` leaves
the inner mutex held in shared mode (shared count 1) while `ex_proc` is 0, the value of
its initialiser, and not the -1 that `lock()` and `lock_sharable()` compare against. -/
theorem shared_mode_ex_proc_not_none :
    IPC_Lock.fresh.ex_proc = 0 ∧
      (Sys.run 64 (Sys.init [100, 200]) [Event.lock_sharable 100]).map
          (fun s => (s.phase 100, s.lock.mutex_, s.lock.ex_proc, decide (s.lock.ex_proc = -1)))
        = some (Phase.sharable, ⟨false, 1⟩, 0, false) := by
  decide

/-! ## Theorems on single iterations -/

/-- One iteration of `insertLoop` is `insertStep`. -/
theorem insertLoop_step (elem fuel : Nat) (arr : IPC_Set) (idx p : Nat) :
    insertLoop elem (fuel + 1) arr idx p =
      match insertStep elem arr idx with
      | InsertState.probing arr1 idx1 => insertLoop elem fuel arr1 idx1 (p + 1)
      | InsertState.returned arr1 => some (arr1, p + 1) := by
  rw [insertLoop]
  simp only [insertStep]
  split
  · split
    · rfl
    · rename_i hz
      have hz0 : load arr (idx &&& (arr.length - 1)) = 0 := by simpa using hz
      simp [compare_exchange_strong, hz0]
  · rfl

theorem load_mem (arr : IPC_Set) (i : Nat) (hi : i < arr.length) : load arr i ∈ arr :=
  (mem_iff_load arr _).2 ⟨i, hi, rfl⟩

/-- On a table without an empty slot and without the key, an iteration of `insert` moves
on to the next slot and leaves the table alone. -/
theorem insertStep_full (arr : IPC_Set) (k idx : Nat) (hpos : 0 < arr.length)
    (hfull : 0 ∉ arr) (habs : k ∉ arr) :
    insertStep k arr idx = InsertState.probing arr ((idx &&& (arr.length - 1)) + 1) := by
  have hin := load_mem arr _ (masked_lt arr idx hpos)
  have h1 : load arr (idx &&& (arr.length - 1)) ≠ k := fun h => habs (h ▸ hin)
  have h2 : load arr (idx &&& (arr.length - 1)) ≠ 0 := fun h => hfull (h ▸ hin)
  simp [insertStep, h1, h2]

theorem insertAfter_full (arr : IPC_Set) (k : Nat) (hpos : 0 < arr.length)
    (hfull : 0 ∉ arr) (habs : k ∉ arr) :
    ∀ (n idx : Nat), ∃ idx1, insertAfter k n arr idx = InsertState.probing arr idx1 := by
  intro n
  induction n with
  | zero => intro idx; exact ⟨idx, rfl⟩
  | succ n ih =>
    intro idx
    obtain ⟨idx1, h⟩ := ih ((idx &&& (arr.length - 1)) + 1)
    exact ⟨idx1, by simp only [insertAfter, insertStep_full arr k idx hpos hfull habs]; exact h⟩

theorem insertLoop_full (arr : IPC_Set) (k : Nat) (hpos : 0 < arr.length)
    (hfull : 0 ∉ arr) (habs : k ∉ arr) :
    ∀ (fuel idx p : Nat), insertLoop k fuel arr idx p = none := by
  intro fuel
  induction fuel with
  | zero => intro idx p; rfl
  | succ f ih =>
    intro idx p
    rw [insertLoop_step, insertStep_full arr k idx hpos hfull habs]
    exact ih _ _

/-- When `insert` looks for the empty-slot value 0 it stops at the first empty slot and
stores nothing. -/
theorem insertLoop_zero (e : Nat) (arr : IPC_Set) (hlen : arr.length = 2 ^ e) :
    ∀ (d idx p fuel : Nat), d < fuel →
      load arr ((idx + d) % 2 ^ e) = 0 →
      (∀ d', d' < d → load arr ((idx + d') % 2 ^ e) ≠ 0) →
      insertLoop 0 fuel arr idx p = some (arr, p + d + 1) := by
  intro d
  induction d with
  | zero =>
    intro idx p fuel hf h0 _
    obtain ⟨f, rfl⟩ : ∃ f, fuel = f + 1 := ⟨fuel - 1, by omega⟩
    simp only [Nat.add_zero] at h0
    simp [insertLoop, hlen, mask_eq_mod, h0]
  | succ d ih =>
    intro idx p fuel hf h0 hne
    obtain ⟨f, rfl⟩ : ∃ f, fuel = f + 1 := ⟨fuel - 1, by omega⟩
    have h1 : load arr (idx % 2 ^ e) ≠ 0 := by simpa using hne 0 (by omega)
    have h3 := ih (idx % 2 ^ e + 1) (p + 1) f (by omega)
      (by rw [succ_mod_add]; exact h0)
      (fun d' hd' => by rw [succ_mod_add]; exact hne (d' + 1) (by omega))
    simp only [insertLoop, hlen, mask_eq_mod, ne_eq, h1, not_false_eq_true, if_true]
    rw [h3]
    congr 2
    omega

theorem set_load_self (arr : IPC_Set) (i v : Nat) (h : load arr i = v) : arr.set i v = arr := by
  apply List.ext_getElem
  · simp
  · intro n h1 h2
    rw [List.getElem_set]
    split
    · rename_i hin
      subst hin
      rw [← h]
      unfold load
      exact List.getD_eq_getElem _ _ h2
    · rfl

theorem hash_lt (k : Nat) : hash k < 2 ^ 32 := by
  unfold hash
  simp only
  apply Nat.xor_lt_two_pow
  · exact Nat.mod_lt _ (by decide)
  · rw [Nat.shiftRight_eq_div_pow]
    exact lt_of_le_of_lt (Nat.div_le_self _ _) (Nat.mod_lt _ (by decide))

/-! ## Theorems on IPC_Set, continued -/

/-- C14, evaluated: the key 6 hashes to slot 0 of 8 slots.  On the empty table, where 6 is
in no slot, `remove(6)` does not terminate: after the last slot the incremented index is 8,
not `init_idx = 0`, the next iteration masks it back to 0 and the pass starts again.  For
every other starting slot the pass ends after `N` loads (`remove_absent`). -/
theorem remove_absent_home_zero_hangs (fuel : Nat) :
    hash 6 &&& (8 - 1) = 0 ∧ 6 ∉ (List.replicate 8 0 : IPC_Set) ∧
      remove fuel (List.replicate 8 0) 6 = none := by
  refine ⟨by decide, by decide, ?_⟩
  have h0 : hash 6 &&& ((List.replicate 8 0 : IPC_Set).length - 1) = 0 := by decide
  simp only [remove, h0]
  exact removeLoop_spins 6 _ (load_ne_of_not_mem _ 6 (by decide) (by decide)) fuel 0 0

/-- C15: on a table of `2 ^ e` slots with no empty slot and without the key `k`,
`insert(k)` is still probing after any number of iterations, the table being the one it
started with, and the call yields no result whatever the number of iterations allowed. -/
theorem insert_full_table (arr : IPC_Set) (e k : Nat) (hlen : arr.length = 2 ^ e)
    (hfull : 0 ∉ arr) (habs : k ∉ arr) :
    (∀ n, ∃ idx, insertAfter k n arr (hash k) = InsertState.probing arr idx) ∧
      ∀ fuel, insert fuel arr k = none := by
  have hpos : 0 < arr.length := by rw [hlen]; exact Nat.two_pow_pos e
  refine ⟨fun n => insertAfter_full arr k hpos hfull habs n (hash k), fun fuel => ?_⟩
  simp [insert, insertProbes, insertLoop_full arr k hpos hfull habs]

/-- C18: for a table of `N = 2 ^ e` slots, `hash(elem) & size - 1` as `remove` computes it
is `hash(k) mod N`, with `hash(k)` a 32-bit value; the first iteration of `remove` loads
that slot (it returns `true` having emptied it, or goes on), and the first iteration of
`insert` loads the same slot (it returns on finding `k`, writes `k` if the slot is empty,
or goes on). -/
theorem same_home_slot (arr : IPC_Set) (e k : Nat) (hlen : arr.length = 2 ^ e) :
    hash k &&& arr.length - 1 = hash k % arr.length ∧ hash k < 2 ^ 32 ∧
      remove 1 arr k =
        (if load arr (hash k % arr.length) = k
          then some ⟨arr.set (hash k % arr.length) 0, true, 1⟩ else none) ∧
      insertProbes 1 arr k =
        (if load arr (hash k % arr.length) = k then some (arr, 1)
          else if load arr (hash k % arr.length) = 0
            then some (arr.set (hash k % arr.length) k, 1) else none) := by
  refine ⟨by rw [hlen, mask_eq_mod], hash_lt k, ?_, ?_⟩
  · simp only [remove, removeLoop, hlen, mask_eq_mod, Nat.mod_mod, compare_exchange_strong]
    by_cases h : load arr (hash k % 2 ^ e) = k <;> simp [h]
  · simp only [insertProbes, insertLoop, hlen, mask_eq_mod, compare_exchange_strong]
    by_cases h : load arr (hash k % 2 ^ e) = k
    · simp [h]
    · by_cases h0 : load arr (hash k % 2 ^ e) = 0 <;> simp [h, h0]

/-- C20: on a table of `2 ^ e` slots with an empty slot, `remove(0)` returns `true` and
`insert(0)` returns, each within one pass, and the table is the same afterwards: `remove`
reports a removal although no key was stored or removed. -/
theorem sentinel_key (arr : IPC_Set) (e : Nat) (hlen : arr.length = 2 ^ e) (hempty : 0 ∈ arr) :
    ∃ d1 d2, d1 < arr.length ∧ d2 < arr.length ∧
      (∀ fuel, arr.length ≤ fuel → remove fuel arr 0 = some ⟨arr, true, d1 + 1⟩) ∧
      (∀ fuel, arr.length ≤ fuel → insertProbes fuel arr 0 = some (arr, d2 + 1)) ∧
      (∀ fuel, arr.length ≤ fuel → insert fuel arr 0 = some arr) := by
  obtain ⟨d1, j, hd1, hj, hj0, hrem⟩ := remove_of_mem arr e 0 hlen hempty
  rw [set_load_self arr j 0 hj0] at hrem
  obtain ⟨i, hi, hik⟩ := (mem_iff_load arr 0).1 hempty
  obtain ⟨d0, hd0, hd0i⟩ := exists_offset (hash 0) i (2 ^ e) (by omega)
  have hex : ∃ d, load arr ((hash 0 + d) % 2 ^ e) = 0 := ⟨d0, by rw [hd0i]; exact hik⟩
  have hfind := Nat.find_spec hex
  have hmin : ∀ d', d' < Nat.find hex → load arr ((hash 0 + d') % 2 ^ e) ≠ 0 :=
    fun d' hd' => Nat.find_min hex hd'
  have hle : Nat.find hex ≤ d0 := Nat.find_min' hex (by rw [hd0i]; exact hik)
  have hins : ∀ fuel, arr.length ≤ fuel →
      insertProbes fuel arr 0 = some (arr, Nat.find hex + 1) := by
    intro fuel hfuel
    have := insertLoop_zero e arr hlen (Nat.find hex) (hash 0) 0 fuel (by omega) hfind hmin
    simp only [insertProbes]
    rw [this]
    simp
  refine ⟨d1, Nat.find hex, hd1, by omega, hrem, hins, fun fuel hfuel => ?_⟩
  simp [insert, hins fuel hfuel]

/-! ## Theorems on liveness and on blocked acquirers -/

/-- C19: `proc_exists` answers `false` exactly when `stat` returned -1 with `errno` equal
to `ENOENT`; it answers `true` when `stat` succeeded, whatever `errno` holds, and when
`stat` failed with `EACCES`.  It is a total function of the outcome of `stat`. -/
theorem proc_exists_errs_toward_alive (os : OS) (proc : Int) :
    (proc_exists os proc = false ↔ ((os proc).1 = -1 ∧ (os proc).2 = ENOENT)) ∧
      (proc_exists os proc = true ↔ ¬ ((os proc).1 = -1 ∧ (os proc).2 = ENOENT)) ∧
      (∀ errno, proc_exists (fun _ => (0, errno)) proc = true) ∧
      proc_exists (fun _ => (-1, EACCES)) proc = true := by
  refine ⟨?_, ?_, ?_, ?_⟩
  · simp [proc_exists]
  · simp only [proc_exists, Bool.not_eq_true', Bool.and_eq_false_iff, beq_eq_false_iff_ne,
      ne_eq]
    tauto
  · intro errno
    simp [proc_exists]
  · simp [proc_exists, EACCES, ENOENT]

/-- C17: when the inner mutex of `l` is held exclusively and `ex_proc` holds a pid other
than -1 for which `proc_exists` is true, one iteration of the loop of `lock()` and one of
the loop of `lock_sharable()` stay in the loop and leave the mutex, `ex_proc` and
`sh_procs` as they are (the failed try is the only call on the mutex); and so does one
iteration of `lock_sharable()` on `l2`, where `try_lock_sharable` fails and `ex_proc` is
-1. -/
theorem blocked_acquirer_passive (fuel : Nat) (os : OS) (q : Int) (l l2 : IPC_Lock)
    (hex : l.mutex_.exclusive = true) (hP : l.ex_proc ≠ -1)
    (hlive : proc_exists os l.ex_proc = true)
    (hfail2 : l2.mutex_.try_lock_sharable.1 = false) (hnone2 : l2.ex_proc = -1) :
    lock_iter fuel os q l = some (false, { l with log := l.log ++ [MutexCall.try_lock false] }) ∧
      lock_sharable_iter fuel os q l =
        some (false, { l with log := l.log ++ [MutexCall.try_lock_sharable false] }) ∧
      lock_sharable_iter fuel os q l2 =
        some (false, { l2 with log := l2.log ++ [MutexCall.try_lock_sharable false] }) := by
  have hex2 : l2.mutex_.exclusive = true := by
    unfold Mutex.try_lock_sharable at hfail2
    split at hfail2
    · simp at hfail2
    · simpa using ‹¬ l2.mutex_.exclusive = false›
  refine ⟨?_, ?_, ?_⟩
  · simp [lock_iter, Mutex.try_lock, hex, hP, hlive]
  · simp [lock_sharable_iter, Mutex.try_lock_sharable, hex, hP, hlive]
  · simp [lock_sharable_iter, Mutex.try_lock_sharable, hex2, hnone2]

/-! ## Theorems on histories of calls -/

theorem load_cons_zero (a : Nat) (arr : IPC_Set) : load (a :: arr) 0 = a := rfl

theorem load_cons_succ (a : Nat) (arr : IPC_Set) (i : Nat) : load (a :: arr) (i + 1) = load arr i :=
  rfl

/-- Storing `v` into slot `i` moves a count over the table by the old and the new word. -/
theorem countP_set (p : Nat → Bool) (v : Nat) :
    ∀ (arr : IPC_Set) (i : Nat), i < arr.length →
      (arr.set i v).countP p + (if p (load arr i) = true then 1 else 0) =
        arr.countP p + (if p v = true then 1 else 0) := by
  intro arr
  induction arr with
  | nil => intro i hi; simp at hi
  | cons a arr ih =>
    intro i hi
    cases i with
    | zero =>
      simp only [List.set_cons_zero, load_cons_zero, List.countP_cons]
      omega
    | succ i =>
      have := ih i (by simpa using hi)
      simp only [List.set_cons_succ, load_cons_succ, List.countP_cons]
      omega

/-- What a returning `insert` has done: nothing, or one store of its non-zero key into a
slot that was empty. -/
theorem insertLoop_result (elem : Nat) :
    ∀ (fuel : Nat) (arr : IPC_Set) (idx p : Nat) (res : IPC_Set × Nat),
      0 < arr.length → insertLoop elem fuel arr idx p = some res →
      res.1 = arr ∨
        ∃ i, i < arr.length ∧ load arr i = 0 ∧ elem ≠ 0 ∧ res.1 = arr.set i elem := by
  intro fuel
  induction fuel with
  | zero => intro arr idx p res _ h; simp [insertLoop] at h
  | succ f ih =>
    intro arr idx p res hpos h
    have hlt := masked_lt arr idx hpos
    rw [insertLoop] at h
    split at h
    · rename_i hne
      split at h
      · exact ih _ _ _ _ hpos h
      · rename_i hz
        have hz0 : load arr (idx &&& (arr.length - 1)) = 0 := by simpa using hz
        simp only [compare_exchange_strong, hz0, if_true] at h
        cases h
        exact Or.inr ⟨_, hlt, hz0, fun h0 => hne (by rw [hz0, h0]), rfl⟩
    · cases h
      exact Or.inl rfl

/-- What a returning `remove` has done: nothing when it returns `false`, and when it
returns `true` one store of 0 into a slot that held its key. -/
theorem removeLoop_result (init : Nat) :
    ∀ (fuel : Nat) (arr : IPC_Set) (elem idx p : Nat) (res : RemoveResult),
      0 < arr.length → removeLoop init fuel arr elem idx p = some res →
      (res.removed = false ∧ res.arr = arr) ∨
        (res.removed = true ∧
          ∃ i, i < arr.length ∧ load arr i = elem ∧ res.arr = arr.set i 0) := by
  intro fuel
  induction fuel with
  | zero => intro arr elem idx p res _ h; simp [removeLoop] at h
  | succ f ih =>
    intro arr elem idx p res hpos h
    have hlt := masked_lt arr idx hpos
    rw [removeLoop] at h
    split at h
    · rename_i heq
      have heq1 : load arr (idx &&& (arr.length - 1)) = elem := heq
      simp only [compare_exchange_strong, heq1, if_true] at h
      cases h
      exact Or.inr ⟨rfl, _, hlt, heq1, rfl⟩
    · split at h
      · exact ih _ _ _ _ _ hpos h
      · cases h
        exact Or.inl ⟨rfl, rfl⟩

theorem insert_result (fuel : Nat) (arr arr1 : IPC_Set) (j : Nat) (hpos : 0 < arr.length)
    (h : insert fuel arr j = some arr1) :
    j ∈ arr1 ∧ (arr1 = arr ∨
      ∃ i, i < arr.length ∧ load arr i = 0 ∧ j ≠ 0 ∧ arr1 = arr.set i j) := by
  simp only [insert, insertProbes] at h
  cases hres : insertLoop j fuel arr (hash j) 0 with
  | none => simp [hres] at h
  | some res =>
    simp only [hres, Option.map_some', Option.some.injEq] at h
    subst h
    exact ⟨(insertLoop_frame j fuel arr (hash j) 0 res hpos hres).2.2,
      insertLoop_result j fuel arr (hash j) 0 res hpos hres⟩

theorem remove_result (fuel : Nat) (arr : IPC_Set) (j : Nat) (r : RemoveResult)
    (hpos : 0 < arr.length) (h : remove fuel arr j = some r) :
    (r.removed = false ∧ r.arr = arr) ∨
      (r.removed = true ∧ ∃ i, i < arr.length ∧ load arr i = j ∧ r.arr = arr.set i 0) :=
  removeLoop_result _ fuel arr j _ 0 r hpos h

theorem set_ne_of_load_ne (arr : IPC_Set) (i v : Nat) (hi : i < arr.length)
    (h : load arr i ≠ v) : arr.set i v ≠ arr := by
  intro heq
  have := load_set arr i i v
  rw [heq, if_pos ⟨rfl, hi⟩] at this
  exact h this

/-- Over a history the slots holding `k` are the writes of `insert(k)` that no `remove(k)`
has taken back. -/
theorem runTally_balance (k fuel : Nat) (hk : k ≠ 0) :
    ∀ (ops : List SetOp) (t t1 : Tally), 0 < t.arr.length →
      t.arr.countP (fun v => decide (v = k)) + t.removals = t.writes →
      runTally k fuel t ops = some t1 →
      t1.arr.countP (fun v => decide (v = k)) + t1.removals = t1.writes := by
  intro ops
  induction ops with
  | nil =>
    intro t t1 _ hbal h
    simp only [runTally, Option.some.injEq] at h
    exact h ▸ hbal
  | cons op ops ih =>
    intro t t1 hpos hbal h
    cases op with
    | insert j =>
      simp only [runTally] at h
      cases hres : insert fuel t.arr j with
      | none => simp [hres] at h
      | some arr1 =>
        rw [hres] at h
        refine ih _ t1 ?_ ?_ h
        · rcases (insert_result fuel t.arr arr1 j hpos hres).2 with h1 | ⟨i, hi, h0, hj, h1⟩
          · simpa [h1] using hpos
          · simpa [h1] using hpos
        · rcases (insert_result fuel t.arr arr1 j hpos hres).2 with h1 | ⟨i, hi, h0, hj, h1⟩
          · simpa [h1] using hbal
          · have hne : arr1 ≠ t.arr := by
              rw [h1]
              exact set_ne_of_load_ne _ _ _ hi (by rw [h0]; exact fun h => hj h.symm)
            have hc := countP_set (fun v => decide (v = k)) j t.arr i hi
            rw [← h1, h0] at hc
            simp only [decide_eq_true_eq, Ne.symm hk, if_false, Nat.add_zero] at hc
            by_cases hjk : j = k
            · simp only [hjk, hne, ne_eq, not_false_eq_true, and_self, if_true] at hc ⊢
              omega
            · simp only [hjk, if_false, false_and, Nat.add_zero] at hc ⊢
              omega
    | remove j =>
      simp only [runTally] at h
      cases hres : remove fuel t.arr j with
      | none => simp [hres] at h
      | some r =>
        rw [hres] at h
        refine ih _ t1 ?_ ?_ h
        · rcases remove_result fuel t.arr j r hpos hres with ⟨_, h1⟩ | ⟨_, i, hi, hij, h1⟩
          · simpa [h1] using hpos
          · simpa [h1] using hpos
        · rcases remove_result fuel t.arr j r hpos hres with ⟨hf, h1⟩ | ⟨ht, i, hi, hij, h1⟩
          · simpa [h1, hf] using hbal
          · have hc := countP_set (fun v => decide (v = k)) 0 t.arr i hi
            rw [← h1, hij] at hc
            simp only [decide_eq_true_eq, Ne.symm hk, if_false, Nat.add_zero] at hc
            by_cases hjk : j = k
            · simp only [hjk, ht, and_self, if_true] at hc ⊢
              omega
            · simp only [hjk, if_false, false_and, Nat.add_zero] at hc ⊢
              omega

/-- C11: in a history of `insert` and `remove` calls on an empty table of `2 ^ e` slots,
all of which return, the number of `remove(k)` calls that returned `true` is at most the
number of `insert(k)` calls that wrote a slot, for a key `k ≠ 0`; the difference is the
number of slots holding `k`.  Every prefix of a history is a history, so the bound holds
at every moment. -/
theorem remove_uniqueness (e k fuel : Nat) (ops : List SetOp) (t : Tally) (hk : k ≠ 0)
    (hrun : runTally k fuel ⟨List.replicate (2 ^ e) 0, 0, 0⟩ ops = some t) :
    t.removals ≤ t.writes ∧
      t.arr.countP (fun v => decide (v = k)) + t.removals = t.writes := by
  have h := runTally_balance k fuel hk ops ⟨List.replicate (2 ^ e) 0, 0, 0⟩ t
    (by simp)
    (by
      simp only [Nat.add_zero]
      rw [List.countP_eq_zero]
      intro a ha
      have : a = 0 := List.eq_of_mem_replicate ha
      simp [this, Ne.symm hk])
    hrun
  exact ⟨by omega, h⟩

/-! ## Theorems on IPC_Lock, continued -/

theorem set_set_restore (arr : IPC_Set) (i v : Nat) (h : load arr i = 0) :
    (arr.set i v).set i 0 = arr := by
  rw [List.set_set]
  exact set_load_self arr i 0 h

theorem load_eq_zero_of_occupied_zero (arr : IPC_Set) (h : occupied arr = 0) (i : Nat) :
    load arr i = 0 := by
  by_cases hi : i < arr.length
  · have hmem := load_mem arr i hi
    have := (List.countP_eq_zero.1 h) _ hmem
    simpa using this
  · unfold load
    rw [List.getD_eq_default]
    omega

/-- C13: when the inner mutex is not held exclusively and the 64 slots of `sh_procs` have
an empty one and do not hold the caller's pid, `lock_sharable()` by process `p` returns in
its first iteration and `unlock_sharable()` by `p` then returns; between them they issue
one successful `try_lock_sharable` and one `unlock_sharable` on the inner mutex and
nothing else, and the mutex (with its shared count), `ex_proc` and `sh_procs` are what
they were before. -/
theorem lock_unlock_sharable_round_trip (os : OS) (p : Int) (l : IPC_Lock)
    (hex : l.mutex_.exclusive = false) (hlen : l.sh_procs.length = MAX_SH_PROCS)
    (hempty : 0 ∈ l.sh_procs) (hp : toU32 p ∉ l.sh_procs) :
    ∃ l1 l2, lock_sharable MAX_SH_PROCS os p 1 l = some l1 ∧
      l1.mutex_.shared = l.mutex_.shared + 1 ∧ toU32 p ∈ l1.sh_procs ∧
      unlock_sharable MAX_SH_PROCS p l1 = some l2 ∧
      l2.log = l.log ++ [MutexCall.try_lock_sharable true, MutexCall.unlock_sharable] ∧
      l2.mutex_ = l.mutex_ ∧ l2.ex_proc = l.ex_proc ∧ l2.sh_procs = l.sh_procs := by
  have hk : toU32 p ≠ 0 := fun h => hp (h ▸ hempty)
  have hlen6 : l.sh_procs.length = 2 ^ 6 := hlen
  obtain ⟨d, slot, hd, hslot, h0, _, hrun, hst, _⟩ :=
    insertProbes_absent l.sh_procs 6 (toU32 p) hlen6 hk hp hempty
  have hslotlt : slot < l.sh_procs.length := by
    rw [hslot]
    exact Nat.mod_lt _ (by omega)
  have hins : insert MAX_SH_PROCS l.sh_procs (toU32 p) = some (l.sh_procs.set slot (toU32 p)) := by
    simp [insert, hrun MAX_SH_PROCS (by omega)]
  have hmem : toU32 p ∈ l.sh_procs.set slot (toU32 p) :=
    (mem_iff_load _ _).2 ⟨slot, by simpa using hslotlt, hst⟩
  obtain ⟨d2, j, _, hj, hjk, hrem⟩ :=
    remove_of_mem (l.sh_procs.set slot (toU32 p)) 6 (toU32 p) (by simpa using hlen6) hmem
  have hjs : j = slot := by
    rw [load_set] at hjk
    by_contra hne
    rw [if_neg (fun h => hne h.1.symm)] at hjk
    exact load_ne_of_not_mem _ _ hk hp j hjk
  subst hjs
  rw [set_set_restore _ _ _ h0] at hrem
  have hrem64 := hrem MAX_SH_PROCS (by simp [hlen])
  refine ⟨{ l with mutex_ := ⟨false, l.mutex_.shared + 1⟩,
                   sh_procs := l.sh_procs.set j (toU32 p),
                   log := l.log ++ [MutexCall.try_lock_sharable true] },
    { l with log := l.log ++ [MutexCall.try_lock_sharable true, MutexCall.unlock_sharable] },
    ?_, rfl, hmem, ?_, rfl, rfl, rfl, rfl⟩
  · simp [lock_sharable, lock_sharable_iter, Mutex.try_lock_sharable, hex, hins]
  · simp only [unlock_sharable, hrem64]
    have hm : l.mutex_ = ⟨false, l.mutex_.shared⟩ := by
      cases hm : l.mutex_
      simp_all
    simp [Mutex.unlock_sharable]
    exact hm.symm

/-- C12: when `ex_proc` is -1, the inner mutex is not held exclusively, its shared count
is the number of occupied slots of the 64 slots of `sh_procs`, no pid is in two slots and
`proc_exists` is false for every pid in a slot, `lock()` by process `q` returns within two
iterations: either the first `try_lock` succeeds, or it fails, the pruner issues one
`unlock_sharable` per occupied slot, and the second `try_lock` succeeds.  Afterwards the
mutex is held exclusively with shared count 0, every slot is empty and `ex_proc == q`. -/
theorem progress_under_reader_crash (os : OS) (q : Int) (l : IPC_Lock)
    (hnone : l.ex_proc = -1) (hex : l.mutex_.exclusive = false)
    (hlen : l.sh_procs.length = MAX_SH_PROCS)
    (hcount : l.mutex_.shared = (occupied l.sh_procs : Nat)) (hnd : NoDupPids l.sh_procs)
    (hdead : ∀ i, i < MAX_SH_PROCS → load l.sh_procs i ≠ 0 →
      proc_exists os (toPid (load l.sh_procs i)) = false) :
    ∃ l1, lock MAX_SH_PROCS os q 2 l = some l1 ∧ l1.mutex_ = ⟨true, 0⟩ ∧ l1.ex_proc = q ∧
      l1.sh_procs.length = MAX_SH_PROCS ∧ (∀ i, load l1.sh_procs i = 0) ∧
      (l1.log = l.log ++ [MutexCall.try_lock true] ∨
        l1.log = l.log ++ [MutexCall.try_lock false] ++
          List.replicate (occupied l.sh_procs) MutexCall.unlock_sharable ++
          [MutexCall.try_lock true]) := by
  by_cases hocc : occupied l.sh_procs = 0
  · have hsh : l.mutex_.shared = 0 := by rw [hcount, hocc]; rfl
    refine ⟨{ l with mutex_ := ⟨true, 0⟩, ex_proc := q,
                     log := l.log ++ [MutexCall.try_lock true] }, ?_, rfl, rfl, hlen,
      load_eq_zero_of_occupied_zero _ hocc, Or.inl rfl⟩
    have hm : l.mutex_ = ⟨false, 0⟩ := by
      cases hm : l.mutex_
      simp_all
    simp [lock, lock_iter, Mutex.try_lock, hm]
  · have hsh : l.mutex_.shared ≠ 0 := by
      rw [hcount]
      exact_mod_cast hocc
    have hlen6 : l.sh_procs.length = 2 ^ 6 := hlen
    obtain ⟨l2, hl2, hex2, hlen2, hslots, hlog, hexcl, hshared⟩ :=
      pruneLoop_spec os 6 MAX_SH_PROCS (by decide) (List.range (2 ^ 6))
        { l with log := l.log ++ [MutexCall.try_lock false] } hlen6 hnd
        (List.nodup_range _) (fun i hi => List.mem_range.1 hi)
    have hds : ∀ v, v ∈ l.sh_procs → deadSlot os v = decide (v ≠ 0) := by
      intro v hv
      obtain ⟨i, hi, hiv⟩ := (mem_iff_load _ _).1 hv
      by_cases hv0 : v = 0
      · simp [deadSlot, hv0]
      · have := hdead i (by rw [← hlen]; exact hi) (by rw [hiv]; exact hv0)
        rw [hiv] at this
        simp [deadSlot, hv0, this]
    have hcnt : (List.range (2 ^ 6)).countP (fun i => deadSlot os (load l.sh_procs i)) =
        occupied l.sh_procs := by
      have h := List.countP_map (deadSlot os) (load l.sh_procs) (List.range (2 ^ 6))
      rw [← hlen6, map_load_range] at h
      have h2 : (List.range (2 ^ 6)).countP (fun i => deadSlot os (load l.sh_procs i)) =
          l.sh_procs.countP (deadSlot os) := by
        rw [h, ← hlen6]
        rfl
      rw [h2]
      exact List.countP_congr (fun v hv => by rw [hds v hv])
    simp only [hcnt] at hlog hshared
    have hall : ∀ i, load l2.sh_procs i = 0 := by
      intro i
      rw [hslots i]
      split
      · rfl
      · rename_i hc
        by_cases hi : i < l.sh_procs.length
        · by_contra hne
          apply hc
          refine ⟨List.mem_range.2 (by rw [← hlen6]; exact hi), ?_⟩
          have hne' : load l.sh_procs i ≠ 0 := hne
          rw [hds _ (load_mem _ _ hi)]
          simpa using hne'
        · show load l.sh_procs i = 0
          unfold load
          rw [List.getD_eq_default]
          omega
    have hm2 : l2.mutex_ = ⟨false, 0⟩ := by
      have e1 : l2.mutex_.exclusive = false := by rw [hexcl]; exact hex
      have e2 : l2.mutex_.shared = 0 := by
        rw [hshared]
        show l.mutex_.shared - _ = 0
        rw [hcount]
        simp
      cases hm : l2.mutex_
      simp_all
    refine ⟨{ l2 with mutex_ := ⟨true, 0⟩, ex_proc := q,
                      log := l2.log ++ [MutexCall.try_lock true] }, ?_, rfl, rfl, hlen2, hall,
      Or.inr (by rw [hlog])⟩
    have hprune : prune_sharable_procs MAX_SH_PROCS os
        { l with log := l.log ++ [MutexCall.try_lock false] } = some l2 := by
      simp only [prune_sharable_procs, hlen6]
      exact hl2
    have hit1 : lock_iter MAX_SH_PROCS os q l = some (false, l2) := by
      have hm : l.mutex_.try_lock = (false, l.mutex_) := by
        simp [Mutex.try_lock, hsh]
      have hprune1 : prune_sharable_procs MAX_SH_PROCS os
          { mutex_ := l.mutex_, ex_proc := -1, sh_procs := l.sh_procs,
            log := l.log ++ [MutexCall.try_lock false] } = some l2 := by
        rw [← hnone]
        exact hprune
      simp only [lock_iter, hm, hnone]
      simp [hprune1]
    have hit2 : lock_iter MAX_SH_PROCS os q l2 =
        some (true, { l2 with mutex_ := ⟨true, 0⟩, ex_proc := q,
                              log := l2.log ++ [MutexCall.try_lock true] }) := by
      simp [lock_iter, Mutex.try_lock, hm2]
    simp [lock, hit1, hit2]

/-! ## The shared count and the occupied slots -/

theorem toU32_ne_zero (p : Int) (hp : validPid p) : toU32 p ≠ 0 := by
  unfold validPid at hp
  unfold toU32
  omega

theorem toU32_inj (p q : Int) (hp : validPid p) (hq : validPid q) (h : toU32 p = toU32 q) :
    p = q := by
  unfold validPid at hp hq
  unfold toU32 at h
  omega

theorem occupied_set_zero (arr : IPC_Set) (i : Nat) (hi : i < arr.length)
    (h : load arr i ≠ 0) : occupied (arr.set i 0) + 1 = occupied arr := by
  have := countP_set (fun v => decide (v ≠ 0)) 0 arr i hi
  simp only [decide_eq_true_eq, h, ne_eq, not_false_eq_true, if_true, not_true_eq_false,
    if_false, Nat.add_zero] at this
  exact this

theorem occupied_set_new (arr : IPC_Set) (i v : Nat) (hi : i < arr.length)
    (h : load arr i = 0) (hv : v ≠ 0) : occupied (arr.set i v) = occupied arr + 1 := by
  have := countP_set (fun v => decide (v ≠ 0)) v arr i hi
  simp only [decide_eq_true_eq, h, ne_eq, not_true_eq_false, if_false, Nat.add_zero, hv,
    not_false_eq_true, if_true] at this
  exact this

theorem mem_of_mem_set (arr : IPC_Set) (i u v : Nat) (h : v ∈ arr.set i u) : v = u ∨ v ∈ arr := by
  obtain ⟨j, hj, hjv⟩ := (mem_iff_load _ _).1 h
  rw [load_set] at hjv
  split at hjv
  · exact Or.inl hjv.symm
  · exact Or.inr ((mem_iff_load _ _).2 ⟨j, by simpa using hj, hjv⟩)

theorem noDupPids_set_new (arr : IPC_Set) (i v : Nat) (h : NoDupPids arr) (hv : v ∉ arr) :
    NoDupPids (arr.set i v) := by
  intro a ha b hb hab hne
  have ha1 : a < arr.length := by simpa using ha
  have hb1 : b < arr.length := by simpa using hb
  rw [load_set] at hne
  rw [load_set, load_set] at hab
  by_cases hia : i = a ∧ a < arr.length
  · by_cases hib : i = b ∧ b < arr.length
    · rw [← hia.1, ← hib.1]
    · rw [if_pos hia, if_neg hib] at hab
      exact absurd (hab ▸ load_mem arr b hb1) hv
  · by_cases hib : i = b ∧ b < arr.length
    · rw [if_neg hia, if_pos hib] at hab
      exact absurd (hab ▸ load_mem arr a ha1) hv
    · rw [if_neg hia] at hne
      rw [if_neg hia, if_neg hib] at hab
      exact h a ha1 b hb1 hab hne

theorem not_mem_set_zero (arr : IPC_Set) (i k : Nat) (h : NoDupPids arr) (hk : k ≠ 0)
    (hi : i < arr.length) (hik : load arr i = k) : k ∉ arr.set i 0 := by
  intro hin
  obtain ⟨j, hj, hjk⟩ := (mem_iff_load _ _).1 hin
  have hj1 : j < arr.length := by simpa using hj
  rw [load_set] at hjk
  split at hjk
  · exact hk hjk.symm
  · rename_i hc
    have := h j hj1 i hi (by rw [hjk, hik]) (by rw [hjk]; exact hk)
    exact hc ⟨this.symm, hj1⟩

/-- The loop of the pruner keeps the lock invariant and puts no new pid into a slot. -/
theorem pruneLoop_inv (fuel : Nat) (os : OS) :
    ∀ (idxs : List Nat) (l l1 : IPC_Lock), LockInv l → pruneLoop fuel os idxs l = some l1 →
      LockInv l1 ∧ (∀ v, v ≠ 0 → v ∈ l1.sh_procs → v ∈ l.sh_procs) := by
  intro idxs
  induction idxs with
  | nil =>
    intro l l1 hinv h
    simp only [pruneLoop, Option.some.injEq] at h
    subst h
    exact ⟨hinv, fun _ _ hv => hv⟩
  | cons i idxs ih =>
    intro l l1 hinv h
    rw [pruneLoop] at h
    split at h
    · exact ih l l1 hinv h
    · split at h
      · rename_i hv0 _
        cases hres : remove fuel l.sh_procs (load l.sh_procs i) with
        | none => simp [hres] at h
        | some r =>
          simp only [hres] at h
          obtain ⟨hlen, hnd, hsh⟩ := hinv
          have hpos : 0 < l.sh_procs.length := by rw [hlen]; decide
          rcases remove_result fuel l.sh_procs _ r hpos hres with ⟨hf, harr⟩ | ⟨ht, j, hj, hjv, harr⟩
          · simp only [hf, Bool.false_eq_true, if_false, harr] at h
            exact ih _ l1 ⟨hlen, hnd, hsh⟩ h
          · simp only [ht, if_true, harr] at h
            have hocc := occupied_set_zero l.sh_procs j hj (by rw [hjv]; exact hv0)
            obtain ⟨hinv1, hsub⟩ := ih _ l1
              ⟨by simpa using hlen, noDupPids_set_zero _ _ hnd, by
                show l.mutex_.shared - 1 = _
                rw [hsh, ← hocc]
                push_cast
                ring⟩ h
            refine ⟨hinv1, fun v hv hin => ?_⟩
            rcases mem_of_mem_set _ _ _ _ (hsub v hv hin) with h0 | hmem
            · exact absurd h0 hv
            · exact hmem
      · exact ih l l1 hinv h

/-- An iteration of `lock()` keeps the lock invariant and puts no new pid into a slot. -/
theorem lock_iter_inv (fuel : Nat) (os : OS) (p : Int) (l l1 : IPC_Lock) (done : Bool)
    (hinv : LockInv l) (h : lock_iter fuel os p l = some (done, l1)) :
    LockInv l1 ∧ (∀ v, v ≠ 0 → v ∈ l1.sh_procs → v ∈ l.sh_procs) := by
  have hsh : l.mutex_.try_lock.2.shared = l.mutex_.shared := by
    unfold Mutex.try_lock
    split <;> rfl
  have hinv0 : ∀ (x : Int) (lg : List MutexCall),
      LockInv { mutex_ := l.mutex_.try_lock.2, ex_proc := x, sh_procs := l.sh_procs, log := lg } :=
    fun x lg => ⟨hinv.1, hinv.2.1, by show l.mutex_.try_lock.2.shared = _; rw [hsh]; exact hinv.2.2⟩
  simp only [lock_iter] at h
  split at h
  · simp only [Option.some.injEq, Prod.mk.injEq] at h
    rw [← h.2]
    exact ⟨hinv0 _ _, fun _ _ hv => hv⟩
  · split at h
    · split at h
      · simp only [Option.some.injEq, Prod.mk.injEq] at h
        rw [← h.2]
        exact ⟨hinv0 _ _, fun _ _ hv => hv⟩
      · simp only [Option.some.injEq, Prod.mk.injEq] at h
        rw [← h.2]
        exact ⟨hinv0 _ _, fun _ _ hv => hv⟩
    · split at h
      · simp at h
      · rename_i l2 hpr
        simp only [Option.some.injEq, Prod.mk.injEq] at h
        rw [← h.2]
        simp only [prune_sharable_procs] at hpr
        have hres := pruneLoop_inv fuel os _ _ l2 (hinv0 _ _) hpr
        exact hres

/-- An iteration of `lock_sharable()` by a process whose pid is in no slot keeps the lock
invariant; the only pid it can put into a slot is the caller's, and only when it leaves
the loop. -/
theorem lock_sharable_iter_inv (fuel : Nat) (os : OS) (p : Int) (l l1 : IPC_Lock) (done : Bool)
    (hinv : LockInv l) (hp0 : toU32 p ≠ 0) (hp : toU32 p ∉ l.sh_procs)
    (h : lock_sharable_iter fuel os p l = some (done, l1)) :
    LockInv l1 ∧ (∀ v, v ∈ l1.sh_procs → v = toU32 p ∨ v ∈ l.sh_procs) ∧
      (done = false → l1.sh_procs = l.sh_procs) := by
  obtain ⟨hlen, hnd, hsh⟩ := hinv
  have hpos : 0 < l.sh_procs.length := by rw [hlen]; decide
  simp only [lock_sharable_iter] at h
  split at h
  · rename_i hok
    have hshared : l.mutex_.try_lock_sharable.2.shared = l.mutex_.shared + 1 := by
      unfold Mutex.try_lock_sharable at hok ⊢
      split
      · rfl
      · rename_i hc
        simp [hc] at hok
    cases hres : insert fuel l.sh_procs (toU32 p) with
    | none => simp [hres] at h
    | some arr =>
      simp only [hres, Option.some.injEq, Prod.mk.injEq] at h
      rw [← h.2]
      obtain ⟨hmem, hshape⟩ := insert_result fuel l.sh_procs arr (toU32 p) hpos hres
      rcases hshape with harr | ⟨i, hi, h0, _, harr⟩
      · exact absurd (harr ▸ hmem) hp
      · subst harr
        refine ⟨⟨by simpa using hlen, noDupPids_set_new _ _ _ hnd hp, ?_⟩,
          fun v hv => mem_of_mem_set _ _ _ _ hv, fun hd => ?_⟩
        · show l.mutex_.try_lock_sharable.2.shared = _
          rw [hshared, hsh, occupied_set_new _ _ _ hi h0 hp0]
          push_cast
          rfl
        · rw [← h.1] at hd
          exact absurd hd (by decide)
  · rename_i hok
    have hshared : l.mutex_.try_lock_sharable.2 = l.mutex_ := by
      unfold Mutex.try_lock_sharable at hok ⊢
      split
      · rename_i hc
        simp [hc] at hok
      · rfl
    split at h
    · split at h
      · simp only [Option.some.injEq, Prod.mk.injEq] at h
        rw [← h.2]
        exact ⟨⟨hlen, hnd, by show l.mutex_.try_lock_sharable.2.shared = _; rw [hshared]; exact hsh⟩,
          fun v hv => Or.inr hv, fun _ => rfl⟩
      · simp only [Option.some.injEq, Prod.mk.injEq] at h
        rw [← h.2]
        exact ⟨⟨hlen, hnd, by
            show l.mutex_.try_lock_sharable.2.unlock.shared = _
            rw [hshared]
            exact hsh⟩,
          fun v hv => Or.inr hv, fun _ => rfl⟩
    · simp only [Option.some.injEq, Prod.mk.injEq] at h
      rw [← h.2]
      exact ⟨⟨hlen, hnd, by show l.mutex_.try_lock_sharable.2.shared = _; rw [hshared]; exact hsh⟩,
        fun v hv => Or.inr hv, fun _ => rfl⟩

/-- A returning `unlock_sharable()` keeps the lock invariant, puts no new pid into a slot
and leaves the caller's pid in no slot. -/
theorem unlock_sharable_inv (fuel : Nat) (p : Int) (l l1 : IPC_Lock) (hinv : LockInv l)
    (hp0 : toU32 p ≠ 0) (h : unlock_sharable fuel p l = some l1) :
    LockInv l1 ∧ (∀ v, v ≠ 0 → v ∈ l1.sh_procs → v ∈ l.sh_procs) ∧
      toU32 p ∉ l1.sh_procs := by
  obtain ⟨hlen, hnd, hsh⟩ := hinv
  have hpos : 0 < l.sh_procs.length := by rw [hlen]; decide
  simp only [unlock_sharable] at h
  cases hres : remove fuel l.sh_procs (toU32 p) with
  | none => simp [hres] at h
  | some r =>
    simp only [hres] at h
    rcases remove_result fuel l.sh_procs _ r hpos hres with ⟨hf, harr⟩ | ⟨ht, j, hj, hjv, harr⟩
    · simp only [hf, Bool.false_eq_true, if_false, harr, Option.some.injEq] at h
      subst h
      refine ⟨⟨hlen, hnd, hsh⟩, fun _ _ hv => hv, fun hin => ?_⟩
      have hlen6 : l.sh_procs.length = 2 ^ 6 := hlen
      obtain ⟨d, j, _, _, _, hrun⟩ := remove_of_mem l.sh_procs 6 (toU32 p) hlen6 hin
      have h1 := hrun (fuel + 64) (by rw [hlen6]; omega)
      rw [remove_mono l.sh_procs (toU32 p) r 64 fuel hres] at h1
      simp only [Option.some.injEq] at h1
      rw [h1] at hf
      simp at hf
    · simp only [ht, if_true, harr, Option.some.injEq] at h
      subst h
      have hocc := occupied_set_zero l.sh_procs j hj (by rw [hjv]; exact hp0)
      refine ⟨⟨by simpa using hlen, noDupPids_set_zero _ _ hnd, ?_⟩, fun v hv hin => ?_,
        not_mem_set_zero _ _ _ hnd hp0 hj hjv⟩
      · show l.mutex_.shared - 1 = _
        rw [hsh, ← hocc]
        push_cast
        ring
      · rcases mem_of_mem_set _ _ _ _ hin with h0 | hmem
        · exact absurd h0 hv
        · exact hmem

theorem load_replicate_zero (n i : Nat) : load (List.replicate n 0) i = 0 := by
  by_cases hi : i < (List.replicate n 0 : IPC_Set).length
  · exact List.eq_of_mem_replicate (load_mem _ i hi)
  · unfold load
    rw [List.getD_eq_default]
    omega

theorem lockInv_fresh : LockInv IPC_Lock.fresh := by
  refine ⟨by simp [IPC_Lock.fresh], ?_, ?_⟩
  · intro i _ j _ _ hne
    exact absurd (load_replicate_zero _ i) hne
  · show (0 : Int) = ((occupied (List.replicate MAX_SH_PROCS 0) : Nat) : Int)
    have : occupied (List.replicate MAX_SH_PROCS 0) = 0 := by
      unfold occupied
      rw [List.countP_eq_zero]
      intro a ha
      simp [List.eq_of_mem_replicate ha]
    rw [this]
    rfl

theorem sysInv_init (procs : List Int) (h : ∀ p, p ∈ procs → validPid p) :
    SysInv (Sys.init procs) := by
  refine ⟨lockInv_fresh, h, fun p hp hin => ?_⟩
  exact absurd (List.eq_of_mem_replicate hin) (toU32_ne_zero p (h p hp))

/-- Every event keeps the system invariant. -/
theorem sysInv_step (fuel : Nat) (s s1 : Sys) (ev : Event) (hinv : SysInv s)
    (h : Sys.step fuel s ev = some s1) : SysInv s1 := by
  obtain ⟨hlock, hvalid, hphase⟩ := hinv
  cases ev with
  | lock p =>
    simp only [Sys.step] at h
    split at h
    · rename_i hc
      cases hres : lock_iter fuel s.os p s.lock with
      | none => simp [hres] at h
      | some pr =>
        obtain ⟨done, l⟩ := pr
        simp only [hres, Option.some.injEq] at h
        subst h
        obtain ⟨hl, hsub⟩ := lock_iter_inv fuel s.os p s.lock l done hlock hres
        refine ⟨hl, hvalid, fun q hq hin => ?_⟩
        have hold := hphase q hq (hsub _ (toU32_ne_zero q (hvalid q hq)) hin)
        have hne : q ≠ p := by
          rintro rfl
          rcases hc.2 with h1 | h1 <;> rw [h1] at hold <;> cases hold
        show Function.update s.phase p _ q = _
        rw [Function.update_noteq hne]
        exact hold
    · simp at h
  | unlock p =>
    simp only [Sys.step] at h
    split at h
    · rename_i hc
      simp only [Option.some.injEq] at h
      subst h
      refine ⟨hlock, hvalid, fun q hq hin => ?_⟩
      have hold := hphase q hq hin
      have hne : q ≠ p := by
        rintro rfl
        rw [hc.2] at hold
        cases hold
      show Function.update s.phase p _ q = _
      rw [Function.update_noteq hne]
      exact hold
    · simp at h
  | lock_sharable p =>
    simp only [Sys.step] at h
    split at h
    · rename_i hc
      have hp0 := toU32_ne_zero p (hvalid p hc.1)
      have hpabs : toU32 p ∉ s.lock.sh_procs := by
        intro hin
        have hold := hphase p hc.1 hin
        rcases hc.2 with h1 | h1 <;> rw [h1] at hold <;> cases hold
      cases hres : lock_sharable_iter fuel s.os p s.lock with
      | none => simp [hres] at h
      | some pr =>
        obtain ⟨done, l⟩ := pr
        simp only [hres, Option.some.injEq] at h
        subst h
        obtain ⟨hl, hsub, hsame⟩ :=
          lock_sharable_iter_inv fuel s.os p s.lock l done hlock hp0 hpabs hres
        refine ⟨hl, hvalid, fun q hq hin => ?_⟩
        show Function.update s.phase p _ q = _
        by_cases hqp : q = p
        · subst hqp
          rw [Function.update_same]
          cases done with
          | true => rfl
          | false =>
            rw [hsame rfl] at hin
            exact absurd hin hpabs
        · rw [Function.update_noteq hqp]
          rcases hsub _ hin with heq | hold
          · exact absurd (toU32_inj q p (hvalid q hq) (hvalid p hc.1) heq) hqp
          · exact hphase q hq hold
    · simp at h
  | unlock_sharable p =>
    simp only [Sys.step] at h
    split at h
    · rename_i hc
      have hp0 := toU32_ne_zero p (hvalid p hc.1)
      cases hres : unlock_sharable fuel p s.lock with
      | none => simp [hres] at h
      | some l =>
        simp only [hres, Option.some.injEq] at h
        subst h
        obtain ⟨hl, hsub, hgone⟩ := unlock_sharable_inv fuel p s.lock l hlock hp0 hres
        refine ⟨hl, hvalid, fun q hq hin => ?_⟩
        have hne : q ≠ p := by
          rintro rfl
          exact hgone hin
        show Function.update s.phase p _ q = _
        rw [Function.update_noteq hne]
        exact hphase q hq (hsub _ (toU32_ne_zero q (hvalid q hq)) hin)
    · simp at h
  | die p =>
    simp only [Sys.step] at h
    split at h
    · simp only [Option.some.injEq] at h
      subst h
      exact ⟨hlock, fun q hq => hvalid q (List.mem_of_mem_erase hq),
        fun q hq hin => hphase q (List.mem_of_mem_erase hq) hin⟩
    · simp at h

theorem sysInv_run (fuel : Nat) :
    ∀ (evs : List Event) (s s1 : Sys), SysInv s → Sys.run fuel s evs = some s1 → SysInv s1 := by
  intro evs
  induction evs with
  | nil =>
    intro s s1 hinv h
    simp only [Sys.run, Option.some.injEq] at h
    exact h ▸ hinv
  | cons ev evs ih =>
    intro s s1 hinv h
    simp only [Sys.run] at h
    cases hres : Sys.step fuel s ev with
    | none => simp [hres] at h
    | some s2 =>
      rw [hres] at h
      exact ih s2 s1 (sysInv_step fuel s s2 ev hinv hres) h

/-! ## Theorems on processes sharing the lock, continued -/

/-- C16, amended: start from a freshly constructed lock shared by processes with valid
(non-zero, 32-bit) pids, and let any schedule run whose steps are one retry-loop iteration
of `lock()` or `lock_sharable()` (with the store or insert that follows the loop), one
whole `unlock()` or `unlock_sharable()` call, or the death of a process between such
steps, each process acquiring only when it holds nothing and releasing only what it holds,
every step returning (an `insert` into 64 occupied slots does not return, so at most 64
pids are ever recorded as shared holders).  In the state reached the shared count of the
inner mutex is the number of occupied slots of `sh_procs`; there are 64 slots and no pid is
in two of them. -/
theorem shared_count_matches_slots (fuel : Nat) (procs : List Int) (evs : List Event) (s : Sys)
    (hprocs : ∀ p, p ∈ procs → validPid p)
    (hrun : Sys.run fuel (Sys.init procs) evs = some s) :
    s.lock.mutex_.shared = (occupied s.lock.sh_procs : Nat) ∧
      s.lock.sh_procs.length = MAX_SH_PROCS ∧ NoDupPids s.lock.sh_procs := by
  obtain ⟨⟨hlen, hnd, hsh⟩, _, _⟩ := sysInv_run fuel evs _ s (sysInv_init procs hprocs) hrun
  exact ⟨hsh, hlen, hnd⟩

/-! ## The two statements of `lock_sharable()` as separate steps -/

/-- An iteration of `lock_sharable()` is its try followed, when the try succeeds, by the
insert. -/
theorem lock_sharable_iter_split (fuel : Nat) (os : OS) (pid : Int) (l : IPC_Lock) :
    lock_sharable_iter fuel os pid l =
      if (lock_sharable_try os l).1 = true then
        (lock_sharable_insert fuel pid (lock_sharable_try os l).2).map (fun l2 => (true, l2))
      else some (false, (lock_sharable_try os l).2) := by
  by_cases h1 : l.mutex_.try_lock_sharable.1 = true
  · cases hins : insert fuel l.sh_procs (toU32 pid) <;>
      simp [lock_sharable_iter, lock_sharable_try, lock_sharable_insert, h1, hins]
  · have h1f : l.mutex_.try_lock_sharable.1 = false := by simpa using h1
    by_cases h2 : l.ex_proc = -1
    · simp [lock_sharable_iter, lock_sharable_try, h1f, h2]
    · by_cases h3 : proc_exists os l.ex_proc = true
      · simp [lock_sharable_iter, lock_sharable_try, h1f, h2, h3]
      · have h3f : proc_exists os l.ex_proc = false := by simpa using h3
        simp [lock_sharable_iter, lock_sharable_try, h1f, h2, h3f]

/-- In the finer schedule the try and the insert of a process, run one after the other,
make the step `Event.lock_sharable` of `Sys.step`. -/
theorem fine_try_insert_eq_step :
    (FineSys.run 64 (FineSys.init [100, 200])
        [FineEvent.try_lock_sharable 100, FineEvent.insert 100]).map
        (fun s => (s.sys.lock, s.sys.alive, s.sys.phase 100, s.sys.phase 200, s.between)) =
      (Sys.run 64 (Sys.init [100, 200]) [Event.lock_sharable 100]).map
        (fun s => (s.lock, s.alive, s.phase 100, s.phase 200, ([] : List Int))) := by
  rfl

/-- C16, counterexample: on a freshly constructed lock shared by the processes 100 and 200,
process 100 calls `lock_sharable()`, its `try_lock_sharable` succeeds (line 138), and it
is killed before `sh_procs.insert(getpid())` (line 155).  In the state reached the inner
mutex counts one shared holder and no slot of `sh_procs` is occupied. -/
theorem shared_count_off_after_death :
    (FineSys.run 64 (FineSys.init [100, 200])
        [FineEvent.try_lock_sharable 100, FineEvent.whole (Event.die 100)]).map
        (fun s => (s.sys.lock.mutex_.shared, occupied s.sys.lock.sh_procs, s.sys.alive,
          s.between)) = some (1, 0, [200], [100]) ∧
      (1 : Int) ≠ ((0 : Nat) : Int) := by
  refine ⟨by rfl, by decide⟩

/-! ## The theorems at concrete inputs -/

/-- The premises of `remove_present` hold for the key 23 in slot 5 of `demoTable`. -/
theorem remove_present_witness :
    demoTable.length = 2 ^ 3 ∧ (23 : Nat) ≠ 0 ∧ 5 < demoTable.length ∧
      (∀ i, i < demoTable.length → (load demoTable i = 23 ↔ i = 5)) ∧
      ∃ r, (∀ fuel, demoTable.length ≤ fuel → remove fuel demoTable 23 = some r) ∧
        r.removed = true ∧ r.probes ≤ demoTable.length ∧ 23 ∉ r.arr ∧
        r.arr.length = demoTable.length ∧ ∀ i, i ≠ 5 → load r.arr i = load demoTable i :=
  ⟨by decide, by decide, by decide, by decide,
    remove_present demoTable 3 23 5 (by decide) (by decide) (by decide) (by decide)⟩

/-- The premises of `insert_postcondition` hold for the key 15 and `demoTable`. -/
theorem insert_postcondition_witness :
    demoTable.length = 2 ^ 3 ∧ (15 : Nat) ≠ 0 ∧ 15 ∉ demoTable ∧ 0 ∈ demoTable ∧
      ∃ d slot, d < demoTable.length ∧
        slot = ((hash 15 &&& (demoTable.length - 1)) + d) % demoTable.length ∧
        load demoTable slot = 0 ∧
        (∀ d', d' < d →
          load demoTable (((hash 15 &&& (demoTable.length - 1)) + d') % demoTable.length) ≠ 0) ∧
        (∀ fuel, demoTable.length ≤ fuel →
          insertProbes fuel demoTable 15 = some (demoTable.set slot 15, d + 1)) ∧
        load (demoTable.set slot 15) slot = 15 ∧
        ∀ i, i ≠ slot → load (demoTable.set slot 15) i = load demoTable i :=
  ⟨by decide, by decide, by decide, by decide,
    insert_postcondition demoTable 3 15 (by decide) (by decide) (by decide) (by decide)⟩

/-- The premises of `membership_persists` hold for the key 7 on an empty table of 8 slots,
followed by calls on the keys 23 and 15. -/
theorem membership_persists_witness :
    (List.replicate 8 0 : IPC_Set).length = 2 ^ 3 ∧ (7 : Nat) ≠ 0 ∧
      insert 8 (List.replicate 8 0) 7 = some [0, 0, 0, 0, 7, 0, 0, 0] ∧
      (∀ op, op ∈ [SetOp.insert 23, SetOp.remove 15, SetOp.insert 15, SetOp.remove 23] →
        op.key ≠ 7) ∧
      runOps 8 [0, 0, 0, 0, 7, 0, 0, 0]
        [SetOp.insert 23, SetOp.remove 15, SetOp.insert 15, SetOp.remove 23]
        = some [0, 0, 0, 0, 7, 0, 15, 0] ∧
      7 ∈ ([0, 0, 0, 0, 7, 0, 0, 0] : IPC_Set) ∧ 7 ∈ ([0, 0, 0, 0, 7, 0, 15, 0] : IPC_Set) :=
  ⟨by decide, by decide, by decide, by decide, by decide,
    membership_persists (List.replicate 8 0) [0, 0, 0, 0, 7, 0, 0, 0] [0, 0, 0, 0, 7, 0, 15, 0]
      3 7 8 8 [SetOp.insert 23, SetOp.remove 15, SetOp.insert 15, SetOp.remove 23]
      (by decide) (by decide) (by decide) (by decide) (by decide)⟩

/-- The premises of `prune_exact` hold for `demoReaders`, where 235 is dead and 200 alive. -/
theorem prune_exact_witness :
    demoReaders.sh_procs.length = MAX_SH_PROCS ∧ NoDupPids demoReaders.sh_procs ∧
      ∃ l1, prune_sharable_procs MAX_SH_PROCS demoOS demoReaders = some l1 ∧
        l1.ex_proc = demoReaders.ex_proc ∧
        l1.sh_procs.length = MAX_SH_PROCS ∧
        (∀ i, i < MAX_SH_PROCS → deadSlot demoOS (load demoReaders.sh_procs i) = true →
          load l1.sh_procs i = 0) ∧
        (∀ i, i < MAX_SH_PROCS → deadSlot demoOS (load demoReaders.sh_procs i) = false →
          load l1.sh_procs i = load demoReaders.sh_procs i) ∧
        l1.log = demoReaders.log ++ List.replicate (demoReaders.sh_procs.countP (deadSlot demoOS))
          MutexCall.unlock_sharable ∧
        l1.mutex_.exclusive = demoReaders.mutex_.exclusive ∧
        l1.mutex_.shared =
          demoReaders.mutex_.shared - (demoReaders.sh_procs.countP (deadSlot demoOS) : Nat) :=
  ⟨by decide, by unfold NoDupPids; decide,
    prune_exact demoOS demoReaders (by decide) (by unfold NoDupPids; decide)⟩

/-- The premises of `writer_crash_absorbed` hold for `demoWriterDied` and the caller 200. -/
theorem writer_crash_absorbed_witness :
    demoWriterDied.mutex_.try_lock.1 = false ∧ demoWriterDied.ex_proc ≠ -1 ∧
      proc_exists demoOS demoWriterDied.ex_proc = false ∧
      ∃ l1, lock 0 demoOS 200 (0 + 1) demoWriterDied = some l1 ∧ l1.ex_proc = 200 ∧
        l1.log = demoWriterDied.log ++ [MutexCall.try_lock false] ∧
        l1.mutex_ = demoWriterDied.mutex_ ∧ l1.sh_procs = demoWriterDied.sh_procs :=
  ⟨by decide, by decide, by decide,
    writer_crash_absorbed 0 0 demoOS 200 demoWriterDied (by decide) (by decide) (by decide)⟩

/-- The premises of `writer_crash_seen_by_reader` hold for `demoWriterDied` and the caller
200. -/
theorem writer_crash_seen_by_reader_witness :
    demoWriterDied.mutex_.exclusive = true ∧ demoWriterDied.ex_proc ≠ -1 ∧
      proc_exists demoOS demoWriterDied.ex_proc = false ∧
      demoWriterDied.sh_procs.length = MAX_SH_PROCS ∧ 0 ∈ demoWriterDied.sh_procs ∧
      toU32 200 ∉ demoWriterDied.sh_procs ∧
      ∃ l1 slot, lock_sharable MAX_SH_PROCS demoOS 200 1 demoWriterDied = none ∧
        lock_sharable MAX_SH_PROCS demoOS 200 2 demoWriterDied = some l1 ∧
        l1.ex_proc = -1 ∧ l1.mutex_.exclusive = false ∧
        l1.mutex_.shared = demoWriterDied.mutex_.shared + 1 ∧
        l1.log = demoWriterDied.log ++ [MutexCall.try_lock_sharable false, MutexCall.unlock,
          MutexCall.try_lock_sharable true] ∧
        slot < MAX_SH_PROCS ∧ load demoWriterDied.sh_procs slot = 0 ∧
        l1.sh_procs = demoWriterDied.sh_procs.set slot (toU32 200) ∧
        load l1.sh_procs slot = toU32 200 ∧
        ∀ i, i ≠ slot → load l1.sh_procs i = load demoWriterDied.sh_procs i :=
  ⟨by decide, by decide, by decide, by decide, by decide, by decide,
    writer_crash_seen_by_reader demoOS 200 demoWriterDied (by decide) (by decide) (by decide)
      (by decide) (by decide) (by decide)⟩

/-- The premises of `remove_uniqueness` hold for `demoHistory` and the key 23. -/
theorem remove_uniqueness_witness :
    (23 : Nat) ≠ 0 ∧
      runTally 23 8 ⟨List.replicate (2 ^ 3) 0, 0, 0⟩ demoHistory
        = some ⟨List.replicate 8 0, 2, 2⟩ ∧
      (2 ≤ 2 ∧ (List.replicate 8 0 : IPC_Set).countP (fun v => decide (v = 23)) + 2 = 2) :=
  ⟨by decide, by decide,
    remove_uniqueness 3 23 8 demoHistory ⟨List.replicate 8 0, 2, 2⟩ (by decide) (by decide)⟩

/-- The premises of `progress_under_reader_crash` hold for `demoDeadReader` and the caller
200. -/
theorem progress_under_reader_crash_witness :
    demoDeadReader.ex_proc = -1 ∧ demoDeadReader.mutex_.exclusive = false ∧
      demoDeadReader.sh_procs.length = MAX_SH_PROCS ∧
      demoDeadReader.mutex_.shared = (occupied demoDeadReader.sh_procs : Nat) ∧
      NoDupPids demoDeadReader.sh_procs ∧
      (∀ i, i < MAX_SH_PROCS → load demoDeadReader.sh_procs i ≠ 0 →
        proc_exists demoOS (toPid (load demoDeadReader.sh_procs i)) = false) ∧
      ∃ l1, lock MAX_SH_PROCS demoOS 200 2 demoDeadReader = some l1 ∧
        l1.mutex_ = ⟨true, 0⟩ ∧ l1.ex_proc = 200 ∧
        l1.sh_procs.length = MAX_SH_PROCS ∧ (∀ i, load l1.sh_procs i = 0) ∧
        (l1.log = demoDeadReader.log ++ [MutexCall.try_lock true] ∨
          l1.log = demoDeadReader.log ++ [MutexCall.try_lock false] ++
            List.replicate (occupied demoDeadReader.sh_procs) MutexCall.unlock_sharable ++
            [MutexCall.try_lock true]) :=
  ⟨by decide, by decide, by decide, by decide, by unfold NoDupPids; decide, by decide,
    progress_under_reader_crash demoOS 200 demoDeadReader (by decide) (by decide) (by decide)
      (by decide) (by unfold NoDupPids; decide) (by decide)⟩

/-- The premises of `lock_unlock_sharable_round_trip` hold for `demoReaders` and the
caller 300. -/
theorem lock_unlock_sharable_round_trip_witness :
    demoReaders.mutex_.exclusive = false ∧ demoReaders.sh_procs.length = MAX_SH_PROCS ∧
      0 ∈ demoReaders.sh_procs ∧ toU32 300 ∉ demoReaders.sh_procs ∧
      ∃ l1 l2, lock_sharable MAX_SH_PROCS demoOS 300 1 demoReaders = some l1 ∧
        l1.mutex_.shared = demoReaders.mutex_.shared + 1 ∧ toU32 300 ∈ l1.sh_procs ∧
        unlock_sharable MAX_SH_PROCS 300 l1 = some l2 ∧
        l2.log = demoReaders.log ++
          [MutexCall.try_lock_sharable true, MutexCall.unlock_sharable] ∧
        l2.mutex_ = demoReaders.mutex_ ∧ l2.ex_proc = demoReaders.ex_proc ∧
        l2.sh_procs = demoReaders.sh_procs :=
  ⟨by decide, by decide, by decide, by decide,
    lock_unlock_sharable_round_trip demoOS 300 demoReaders (by decide) (by decide) (by decide)
      (by decide)⟩

/-- The premises of `insert_full_table` hold for `demoFull` and the key 9. -/
theorem insert_full_table_witness :
    demoFull.length = 2 ^ 3 ∧ 0 ∉ demoFull ∧ 9 ∉ demoFull ∧
      (∀ n, ∃ idx, insertAfter 9 n demoFull (hash 9) = InsertState.probing demoFull idx) ∧
      ∀ fuel, insert fuel demoFull 9 = none :=
  ⟨by decide, by decide, by decide,
    insert_full_table demoFull 3 9 (by decide) (by decide) (by decide)⟩

/-- The premises of `same_home_slot` hold for `demoTable` and the key 23. -/
theorem same_home_slot_witness :
    demoTable.length = 2 ^ 3 ∧
      (hash 23 &&& demoTable.length - 1 = hash 23 % demoTable.length ∧ hash 23 < 2 ^ 32 ∧
        remove 1 demoTable 23 =
          (if load demoTable (hash 23 % demoTable.length) = 23
            then some ⟨demoTable.set (hash 23 % demoTable.length) 0, true, 1⟩ else none) ∧
        insertProbes 1 demoTable 23 =
          (if load demoTable (hash 23 % demoTable.length) = 23 then some (demoTable, 1)
            else if load demoTable (hash 23 % demoTable.length) = 0
              then some (demoTable.set (hash 23 % demoTable.length) 23, 1) else none)) :=
  ⟨by decide, same_home_slot demoTable 3 23 (by decide)⟩

/-- The premises of `sentinel_key` hold for `demoTable`. -/
theorem sentinel_key_witness :
    demoTable.length = 2 ^ 3 ∧ 0 ∈ demoTable ∧
      ∃ d1 d2, d1 < demoTable.length ∧ d2 < demoTable.length ∧
        (∀ fuel, demoTable.length ≤ fuel →
          remove fuel demoTable 0 = some ⟨demoTable, true, d1 + 1⟩) ∧
        (∀ fuel, demoTable.length ≤ fuel →
          insertProbes fuel demoTable 0 = some (demoTable, d2 + 1)) ∧
        (∀ fuel, demoTable.length ≤ fuel → insert fuel demoTable 0 = some demoTable) :=
  ⟨by decide, by decide, sentinel_key demoTable 3 (by decide) (by decide)⟩

/-- The premises of `blocked_acquirer_passive` hold for `demoWriterAlive`, `demoNoOwner` and
the caller 300. -/
theorem blocked_acquirer_passive_witness :
    demoWriterAlive.mutex_.exclusive = true ∧ demoWriterAlive.ex_proc ≠ -1 ∧
      proc_exists demoOS demoWriterAlive.ex_proc = true ∧
      demoNoOwner.mutex_.try_lock_sharable.1 = false ∧ demoNoOwner.ex_proc = -1 ∧
      (lock_iter 0 demoOS 300 demoWriterAlive =
          some (false, { demoWriterAlive with
            log := demoWriterAlive.log ++ [MutexCall.try_lock false] }) ∧
        lock_sharable_iter 0 demoOS 300 demoWriterAlive =
          some (false, { demoWriterAlive with
            log := demoWriterAlive.log ++ [MutexCall.try_lock_sharable false] }) ∧
        lock_sharable_iter 0 demoOS 300 demoNoOwner =
          some (false, { demoNoOwner with
            log := demoNoOwner.log ++ [MutexCall.try_lock_sharable false] })) :=
  ⟨by decide, by decide, by decide, by decide, by decide,
    blocked_acquirer_passive 0 demoOS 300 demoWriterAlive demoNoOwner (by decide) (by decide)
      (by decide) (by decide) (by decide)⟩

theorem validPid_demo : ∀ p, p ∈ ([100, 200] : List Int) → validPid p := by
  intro p hp
  simp only [List.mem_cons, List.mem_singleton, List.not_mem_nil, or_false] at hp
  rcases hp with rfl | rfl <;> (unfold validPid; decide)

/-- The premises of `shared_count_matches_slots` hold for the processes 100 and 200 and
`demoSchedule`. -/
theorem shared_count_matches_slots_witness :
    (∀ p, p ∈ ([100, 200] : List Int) → validPid p) ∧
      ∃ s, Sys.run 64 (Sys.init [100, 200]) demoSchedule = some s ∧
        s.lock.mutex_.shared = (occupied s.lock.sh_procs : Nat) ∧
        s.lock.sh_procs.length = MAX_SH_PROCS ∧ NoDupPids s.lock.sh_procs := by
  have hsome : (Sys.run 64 (Sys.init [100, 200]) demoSchedule).isSome = true := by rfl
  obtain ⟨s, hs⟩ := Option.isSome_iff_exists.1 hsome
  exact ⟨validPid_demo, s, hs,
    shared_count_matches_slots 64 [100, 200] demoSchedule s validPid_demo hs⟩

end Shadesmar
